import Mathlib

/-!
Verification development for OffsetAllocatorExplorer

The repository is a GUI explorer (`src/OffsetAllocatorExplorer.cpp`) around the
OffsetAllocator two-level segregated-fit range allocator.  Only the explorer
harness is present in the repository sources; the allocator core (construct /
allocate / free / reset / storageReport, the size-class encoder
`SmallFloat::floatToUint`, bins, neighbor chain) is declared and used by the
harness but its implementation is not part of the sources.  Following the
design document, the allocator core is modelled here from the specification
text (each such definition is marked `Modelled from the spec:`), while the
harness functions (`IsPressed`, the allocation-vector bookkeeping in
`ShowAllocatorExplorer`, the `drawAllocation` pixel loop) are translated
directly from the C++ sources.

The development proves (or refutes) the testable properties of the
specification: accounting and partition invariants of all reachable allocator
states, the concrete coalescing and exhaustion scenarios, double-free
detection, monotonicity of the size-class mappings, reset/reconstruction
equivalence, edge-triggered key handling, the harness's handle discipline and
termination of the drawing loop.
-/

namespace OA

/-! ## Size-class encoder (SmallFloat)

Modelled from the spec: the encoder maps a byte size to one of
`NUM_LEAF_BINS` bins "with approximately constant relative resolution across
magnitudes (half-float-like: an exponent field selecting a power-of-two range
and a small mantissa field subdividing it)".  The exact bit layout is left
open by the spec (§9); we use a 3-bit mantissa, which matches the
`TOP_BINS_INDEX_SHIFT`-based bin indexing visible in the harness.
-/

def NUM_LEAF_BINS : Nat := 256

def MANTISSA_BITS : Nat := 3

def MANTISSA_VALUE : Nat := 8

def MANTISSA_MASK : Nat := 7

/-- Modelled from the spec: `SmallFloat::floatToUint`, the bin → minimum
representable size direction of the encoder (an exponent field selecting a
power-of-two range and a mantissa field subdividing it).  The implementation
is declared in the harness (`OffsetAllocator::SmallFloat::floatToUint`) but
not part of the repository sources. -/
def floatToUint (f : Nat) : Nat :=
  let exponent := f >>> MANTISSA_BITS
  let mantissa := f &&& MANTISSA_MASK
  if exponent = 0 then mantissa else (mantissa ||| MANTISSA_VALUE) <<< (exponent - 1)

/-- Upward linear scan: first `b` in `[start, start+fuel)` with `p b`.
This realizes the spec's `findFirstNonEmptyBinAtOrAbove` semantics. -/
def findBinFrom (p : Nat → Bool) : Nat → Nat → Option Nat
  | _, 0 => none
  | b, fuel + 1 => if p b then some b else findBinFrom p (b + 1) fuel

/-- Downward linear scan: greatest `b ≤ start` with `p b`. -/
def findBinDown (p : Nat → Bool) : Nat → Option Nat
  | 0 => if p 0 then some 0 else none
  | b + 1 => if p (b + 1) then some (b + 1) else findBinDown p b

/-- Modelled from the spec: the ceiling size → bin mapping, "used when
searching for a free region: must return a bin whose minimum representable
size is ≥ the requested size"; `none` when the size exceeds every bin. -/
def ceilBinOf (s : Nat) : Option Nat :=
  findBinFrom (fun b => decide (s ≤ floatToUint b)) 0 NUM_LEAF_BINS

/-- Modelled from the spec: the floor size → bin mapping, "used when
classifying a free node by its actual size: must place the node in the
highest bin whose minimum size is ≤ the node's actual size". -/
def floorBinOf (s : Nat) : Nat :=
  (findBinDown (fun b => decide (floatToUint b ≤ s)) (NUM_LEAF_BINS - 1)).getD 0

/-! ### Lemmas about the searches and the encoder -/

theorem findBinFrom_eq_some {p : Nat → Bool} {start fuel b : Nat}
    (h : findBinFrom p start fuel = some b) :
    p b = true ∧ start ≤ b ∧ b < start + fuel ∧
      ∀ x, start ≤ x → x < b → p x = false := by
  induction fuel generalizing start with
  | zero => simp [findBinFrom] at h
  | succ fuel ih =>
    rw [findBinFrom] at h
    by_cases hp : p start
    · simp [hp] at h
      subst h
      exact ⟨hp, Nat.le_refl _, by omega, fun x hx1 hx2 => absurd hx1 (by omega)⟩
    · simp [hp] at h
      obtain ⟨h1, h2, h3, h4⟩ := ih h
      refine ⟨h1, by omega, by omega, fun x hx1 hx2 => ?_⟩
      rcases Nat.eq_or_lt_of_le hx1 with rfl | hlt
      · exact Bool.eq_false_iff.mpr hp
      · exact h4 x hlt hx2

theorem findBinFrom_eq_none {p : Nat → Bool} {start fuel : Nat}
    (h : findBinFrom p start fuel = none) :
    ∀ x, start ≤ x → x < start + fuel → p x = false := by
  induction fuel generalizing start with
  | zero => intro x hx1 hx2; omega
  | succ fuel ih =>
    rw [findBinFrom] at h
    by_cases hp : p start
    · simp [hp] at h
    · simp [hp] at h
      intro x hx1 hx2
      rcases Nat.eq_or_lt_of_le hx1 with rfl | hlt
      · exact Bool.eq_false_iff.mpr hp
      · exact ih h x hlt (by omega)

/-- Completeness of the upward scan: if some bin in range satisfies `p`,
the scan finds one, and it is at most the given witness. -/
theorem findBinFrom_complete {p : Nat → Bool} {start fuel c : Nat}
    (hc : p c = true) (h1 : start ≤ c) (h2 : c < start + fuel) :
    ∃ b, findBinFrom p start fuel = some b ∧ b ≤ c := by
  cases hfind : findBinFrom p start fuel with
  | none => exact absurd hc (by simp [findBinFrom_eq_none hfind c h1 h2])
  | some b =>
    refine ⟨b, rfl, ?_⟩
    by_contra hbc
    exact absurd hc (by simp [(findBinFrom_eq_some hfind).2.2.2 c h1 (by omega)])

theorem findBinDown_eq_some {p : Nat → Bool} {start b : Nat}
    (h : findBinDown p start = some b) :
    p b = true ∧ b ≤ start ∧ ∀ x, b < x → x ≤ start → p x = false := by
  induction start with
  | zero =>
    rw [findBinDown] at h
    by_cases hp : p 0 <;> simp [hp] at h
    subst h
    exact ⟨hp, Nat.le_refl _, fun x hx1 hx2 => by omega⟩
  | succ n ih =>
    rw [findBinDown] at h
    by_cases hp : p (n + 1)
    · simp [hp] at h
      subst h
      exact ⟨hp, Nat.le_refl _, fun x hx1 hx2 => by omega⟩
    · simp [hp] at h
      obtain ⟨h1, h2, h3⟩ := ih h
      refine ⟨h1, by omega, fun x hx1 hx2 => ?_⟩
      rcases Nat.eq_or_lt_of_le hx2 with rfl | hlt
      · exact Bool.eq_false_iff.mpr hp
      · exact h3 x hx1 (by omega)

/-- Completeness of the downward scan. -/
theorem findBinDown_complete {p : Nat → Bool} {start c : Nat}
    (hc : p c = true) (h1 : c ≤ start) :
    ∃ b, findBinDown p start = some b ∧ c ≤ b := by
  cases hfind : findBinDown p start with
  | none =>
    exfalso
    induction start with
    | zero =>
      rw [findBinDown] at hfind
      interval_cases c
      simp [hc] at hfind
    | succ n ih =>
      rw [findBinDown] at hfind
      by_cases hp : p (n + 1)
      · simp [hp] at hfind
      · simp [hp] at hfind
        rcases Nat.eq_or_lt_of_le h1 with rfl | hlt
        · exact hp (by simpa using hc)
        · exact ih (by omega) hfind
  | some b =>
    refine ⟨b, rfl, ?_⟩
    by_contra hbc
    exact absurd hc (by simp [(findBinDown_eq_some hfind).2.2 c (by omega) h1])

theorem floatToUint_zero : floatToUint 0 = 0 := by decide

set_option maxRecDepth 4096 in
theorem floatToUint_lt_succ : ∀ b, b < NUM_LEAF_BINS - 1 →
    floatToUint b < floatToUint (b + 1) := by decide

/-- The encoder's bin → minimum size direction is strictly monotone on the
bin range. -/
theorem floatToUint_strictMono {b c : Nat} (hbc : b < c) (hc : c ≤ NUM_LEAF_BINS - 1) :
    floatToUint b < floatToUint c := by
  induction c with
  | zero => omega
  | succ n ih =>
    rcases Nat.eq_or_lt_of_le (Nat.lt_succ_iff.mp hbc) with rfl | hlt
    · exact floatToUint_lt_succ b (by omega)
    · exact Nat.lt_trans (ih hlt (by omega)) (floatToUint_lt_succ n (by omega))

theorem floatToUint_mono {b c : Nat} (hbc : b ≤ c) (hc : c ≤ NUM_LEAF_BINS - 1) :
    floatToUint b ≤ floatToUint c := by
  rcases Nat.eq_or_lt_of_le hbc with rfl | hlt
  · exact Nat.le_refl _
  · exact Nat.le_of_lt (floatToUint_strictMono hlt hc)

theorem ceilBinOf_spec {s b : Nat} (h : ceilBinOf s = some b) :
    s ≤ floatToUint b ∧ b < NUM_LEAF_BINS := by
  obtain ⟨h1, _, h3, _⟩ := findBinFrom_eq_some h
  exact ⟨by simpa using h1, by simpa using h3⟩

theorem floorBinOf_le : ∀ s, floorBinOf s ≤ NUM_LEAF_BINS - 1 := by
  intro s
  unfold floorBinOf
  cases hfind : findBinDown (fun b => decide (floatToUint b ≤ s)) (NUM_LEAF_BINS - 1) with
  | none => simp [Option.getD, NUM_LEAF_BINS]
  | some b => simpa using (findBinDown_eq_some hfind).2.1

theorem floorBinOf_spec (s : Nat) :
    floatToUint (floorBinOf s) ≤ s ∧
      ∀ x, floorBinOf s < x → x ≤ NUM_LEAF_BINS - 1 → ¬ floatToUint x ≤ s := by
  unfold floorBinOf
  obtain ⟨b, hb, -⟩ :=
    @findBinDown_complete (fun b => decide (floatToUint b ≤ s)) (NUM_LEAF_BINS - 1)
      0 (by simp [floatToUint_zero]) (by omega)
  rw [hb]
  obtain ⟨h1, h2, h3⟩ := findBinDown_eq_some hb
  refine ⟨by simpa using h1, fun x hx1 hx2 => by simpa using h3 x (by simpa using hx1) hx2⟩

theorem floorBinOf_mono {s t : Nat} (hst : s ≤ t) : floorBinOf s ≤ floorBinOf t := by
  have hs := (floorBinOf_spec s).1
  have hle := floorBinOf_le s
  by_contra hlt
  exact (floorBinOf_spec t).2 (floorBinOf s) (by omega) hle (Nat.le_trans hs hst)

/-- Floor classification of a size `t` drawn from bin at or above the ceiling
bin of a request `s` can serve the request: `s ≤ t`. This is the key
size-adequacy fact used by `allocate`. -/
theorem ceil_le_size {s t cb : Nat} (hceil : ceilBinOf s = some cb)
    (hfb : cb ≤ floorBinOf t) : s ≤ t := by
  obtain ⟨h1, h2⟩ := ceilBinOf_spec hceil
  have h3 := (floorBinOf_spec t).1
  have h4 := floatToUint_mono hfb (floorBinOf_le t)
  omega

theorem ceilBinOf_mono {s t : Nat} {bt : Nat} (hst : s ≤ t) (ht : ceilBinOf t = some bt) :
    ∃ bs, ceilBinOf s = some bs ∧ bs ≤ bt := by
  obtain ⟨h1, h2⟩ := ceilBinOf_spec ht
  obtain ⟨bs, hbs, hle⟩ :=
    @findBinFrom_complete (fun b => decide (s ≤ floatToUint b)) 0
      NUM_LEAF_BINS bt (by simp; omega) (by omega) (by omega)
  exact ⟨bs, hbs, hle⟩

theorem floorBinOf_le_ceil {s b : Nat} (h : ceilBinOf s = some b) : floorBinOf s ≤ b := by
  obtain ⟨h1, h2⟩ := ceilBinOf_spec h
  by_contra hlt
  have h3 := (floorBinOf_spec s).2
  have h4 := (floorBinOf_spec s).1
  have h5 : floatToUint b < floatToUint (floorBinOf s) :=
    floatToUint_strictMono (by omega) (floorBinOf_le s)
  omega

/-! ## Allocator data model

Modelled from the spec (§3): a `Node` "describes one contiguous byte range
`[offset, offset+size)`" and carries its arena slot index; the neighbor chain
(the address-ordered doubly linked list across all nodes) is embedded as the
address-ordered list `chain`; the per-bin intrusive lists of free-node
indices are embedded as `bins` (head = most recently inserted); the free-slot
stack is the list `freeSlots` (head = top of stack).
-/

structure Node where
  idx : Nat
  offset : Nat
  size : Nat
  used : Bool
deriving DecidableEq, Repr

/-- Modelled from the spec: the allocation handle `{offset, metadata}` where
"`metadata` is the owning node's arena index". -/
structure Allocation where
  offset : Nat
  metadata : Nat
deriving DecidableEq, Repr

/-- Modelled from the spec: "A reserved sentinel value of `offset` denotes
no space" (`Allocation::NO_SPACE`, checked by the harness). -/
def NO_SPACE : Nat := 2 ^ 32 - 1

structure AllocState where
  totalSize : Nat
  maxAllocs : Nat
  freeStorage : Nat
  chain : List Node
  bins : Nat → List Nat
  freeSlots : List Nat

inductive AllocResult where
  | ok (a : Allocation)
  | invalidRequest
  | outOfSpace
  | capacityExceeded
deriving DecidableEq, Repr

/-- The `offset` field of the value handed back to the caller: the reserved
sentinel on every failure. -/
def AllocResult.retOffset : AllocResult → Nat
  | .ok a => a.offset
  | _ => NO_SPACE

inductive FreeError where
  | invalidHandle
deriving DecidableEq, Repr

inductive ConfigError where
  | configurationError
deriving DecidableEq, Repr

structure StorageReport where
  totalFreeSpace : Nat
  largestFreeRegion : Nat
deriving DecidableEq, Repr

/-- First node of the chain carrying the given arena index (handle
resolution). -/
def findNode (i : Nat) : List Node → Option Node
  | [] => none
  | n :: rest => if n.idx = i then some n else findNode i rest

/-- Sum of `size` over the nodes with `used = false`. -/
def sumFree : List Node → Nat
  | [] => 0
  | n :: rest => (if n.used then 0 else n.size) + sumFree rest

/-- Point update of the bin table. -/
def updBins (bins : Nat → List Nat) (b : Nat) (l : List Nat) : Nat → List Nat :=
  fun x => if x = b then l else bins x

/-- Remove each listed node's index from the bin holding nodes of its size
(floor classification), as coalescing does for absorbed neighbors. -/
def binsEraseNodes (bins : Nat → List Nat) : List Node → (Nat → List Nat)
  | [] => bins
  | r :: rest =>
    binsEraseNodes (updBins bins (floorBinOf r.size) ((bins (floorBinOf r.size)).erase r.idx)) rest

def chainIdxs (l : List Node) : List Nat := l.map Node.idx

/-- Modelled from the spec: construction "creates one root Free node covering
`[0, size)`; free-byte counter = size", the root node drawn from the free-slot
stack and classified by its floor bin. -/
def initState (size maxAllocs : Nat) : AllocState :=
  { totalSize := size
    maxAllocs := maxAllocs
    freeStorage := size
    chain := [⟨0, 0, size, false⟩]
    bins := updBins (fun _ => []) (floorBinOf size) [0]
    freeSlots := List.range' 1 (maxAllocs - 1) }

/-- Modelled from the spec: `construct` "validates `size > 0` and
`maxAllocations > 0`", failing with `ConfigurationError` otherwise. -/
def construct (size maxAllocs : Nat) : Except ConfigError AllocState :=
  if 1 ≤ size ∧ 1 ≤ maxAllocs then .ok (initState size maxAllocs) else
    .error .configurationError

/-- Chain surgery of `allocate`: the node with index `i` is shrunk to the
requested size and marked used; when its size exceeds the request a remainder
node with fresh index `j` is spliced in immediately after it. -/
def allocAt (i s j : Nat) : List Node → List Node
  | [] => []
  | n :: rest =>
    if n.idx = i then
      if s < n.size then
        { n with size := s, used := true } :: ⟨j, n.offset + s, n.size - s, false⟩ :: rest
      else
        { n with size := s, used := true } :: rest
    else n :: allocAt i s j rest

/-- Modelled from the spec (§4.4 allocate): zero-size requests are
`InvalidRequest`; the ceiling bin is computed and the first non-empty bin at
or above it queried (`OutOfSpace` when none); the bin's list head node is
popped, split when strictly larger than the request (`CapacityExceeded` when
the free-slot stack is empty), the remainder is floor-classified, the
consumed node is shrunk and marked used and the free-byte counter is
decremented by the requested size. -/
def allocate (st : AllocState) (s : Nat) : AllocResult × AllocState :=
  if s = 0 then (.invalidRequest, st)
  else
    match ceilBinOf s with
    | none => (.outOfSpace, st)
    | some cb =>
      match findBinFrom (fun b => !(st.bins b).isEmpty) cb (NUM_LEAF_BINS - cb) with
      | none => (.outOfSpace, st)
      | some b =>
        match (st.bins b).head? with
        | none => (.outOfSpace, st)
        | some i =>
          match findNode i st.chain with
          | none => (.outOfSpace, st)
          | some n =>
            if s < n.size then
              match st.freeSlots with
              | [] => (.capacityExceeded, st)
              | j :: slots =>
                (.ok ⟨n.offset, i⟩,
                  { st with
                    freeStorage := st.freeStorage - s
                    chain := allocAt i s j st.chain
                    bins := updBins (updBins st.bins b ((st.bins b).tail))
                      (floorBinOf (n.size - s))
                      (j :: updBins st.bins b ((st.bins b).tail) (floorBinOf (n.size - s)))
                    freeSlots := slots })
            else
              (.ok ⟨n.offset, i⟩,
                { st with
                  freeStorage := st.freeStorage - s
                  chain := allocAt i s 0 st.chain
                  bins := updBins st.bins b ((st.bins b).tail)
                  freeSlots := st.freeSlots })

/-- Result of the coalescing chain surgery: the new chain, the absorbed
neighbor nodes (whose slots are released and whose bin entries are removed)
and the size of the combined free node (for its floor re-classification). -/
structure FreeOut where
  chain : List Node
  released : List Node
  newSize : Nat
deriving Repr

/-- Chain surgery of `free` (spec §4.4 free): the node with index `i` is
marked free and each directly adjacent free neighbor is absorbed into it
(range extended downward/upward, neighbor spliced out of the chain). -/
def freeAt (i : Nat) : List Node → Option FreeOut
  | [] => none
  | [n] =>
    if n.idx = i then some ⟨[{ n with used := false }], [], n.size⟩ else none
  | n :: m :: rest =>
    if n.idx = i then
      if m.used then
        some ⟨{ n with used := false } :: m :: rest, [], n.size⟩
      else
        some ⟨⟨i, n.offset, n.size + m.size, false⟩ :: rest, [m], n.size + m.size⟩
    else if m.idx = i then
      match rest with
      | [] =>
        if n.used then
          some ⟨n :: [{ m with used := false }], [], m.size⟩
        else
          some ⟨[⟨i, n.offset, n.size + m.size, false⟩], [n], n.size + m.size⟩
      | q :: rest' =>
        if n.used then
          if q.used then
            some ⟨n :: { m with used := false } :: q :: rest', [], m.size⟩
          else
            some ⟨n :: ⟨i, m.offset, m.size + q.size, false⟩ :: rest', [q], m.size + q.size⟩
        else
          if q.used then
            some ⟨⟨i, n.offset, n.size + m.size, false⟩ :: q :: rest', [n], n.size + m.size⟩
          else
            some ⟨⟨i, n.offset, n.size + m.size + q.size, false⟩ :: rest', [n, q],
              n.size + m.size + q.size⟩
    else
      match freeAt i (m :: rest) with
      | some out => some { out with chain := n :: out.chain }
      | none => none

/-- Modelled from the spec (§4.4 free): the node is resolved by
`allocation.metadata`; "the node must currently be `used` and its `offset`
must match `allocation.offset` (else `InvalidHandle` — covers stale, foreign,
or double-free handles)".  On success the node is marked free, the free-byte
counter incremented by its size, free neighbors are absorbed (their bin
entries removed, their slots released) and the combined node is
floor-classified into its bin. -/
def free (st : AllocState) (a : Allocation) : Except FreeError Unit × AllocState :=
  match findNode a.metadata st.chain with
  | none => (.error .invalidHandle, st)
  | some n =>
    if n.used = true ∧ n.offset = a.offset then
      match freeAt a.metadata st.chain with
      | none => (.ok (), st)
      | some out =>
        (.ok (),
          { st with
            freeStorage := st.freeStorage + n.size
            chain := out.chain
            bins :=
              updBins (binsEraseNodes st.bins out.released) (floorBinOf out.newSize)
                (a.metadata :: binsEraseNodes st.bins out.released (floorBinOf out.newSize))
            freeSlots := chainIdxs out.released ++ st.freeSlots })
    else (.error .invalidHandle, st)

/-- Modelled from the spec: `allocationSize` is an "O(1) lookup of the live
node's `size`; fails with `InvalidHandle` if the handle does not resolve to a
currently-used node at the given offset". -/
def allocationSize (st : AllocState) (a : Allocation) : Except FreeError Nat :=
  match findNode a.metadata st.chain with
  | none => .error .invalidHandle
  | some n =>
    if n.used = true ∧ n.offset = a.offset then .ok n.size else .error .invalidHandle

/-- Modelled from the spec: `storageReport` "returns `{totalFreeSpace =
free-byte counter, largestFreeRegion = minimum size of the highest currently
non-empty bin}`". -/
def storageReport (st : AllocState) : StorageReport :=
  { totalFreeSpace := st.freeStorage
    largestFreeRegion :=
      match findBinDown (fun b => !(st.bins b).isEmpty) (NUM_LEAF_BINS - 1) with
      | some b => floatToUint b
      | none => 0 }

/-- Modelled from the spec: `reset` "reinitializes bitmaps and free-slot
stack, releases all arena slots except a fresh root node spanning `[0, size)`;
free-byte counter = size". -/
def resetA (st : AllocState) : AllocState :=
  { totalSize := st.totalSize
    maxAllocs := st.maxAllocs
    freeStorage := st.totalSize
    chain := [⟨0, 0, st.totalSize, false⟩]
    bins := updBins (fun _ => []) (floorBinOf st.totalSize) [0]
    freeSlots := List.range' 1 (st.maxAllocs - 1) }

/-- The reachable allocator states: any sequence of successful construction,
allocate, free and reset calls (failed calls leave the state unchanged, so
they are covered as well). -/
inductive Reachable : AllocState → Prop
  | construct (size maxAllocs : Nat) : 1 ≤ size → 1 ≤ maxAllocs →
      Reachable (initState size maxAllocs)
  | stepAlloc {st : AllocState} (s : Nat) : Reachable st → Reachable (allocate st s).2
  | stepFree {st : AllocState} (a : Allocation) : Reachable st → Reachable (free st a).2
  | stepReset {st : AllocState} : Reachable st → Reachable (resetA st)

/-! ## Chain well-formedness and the allocator invariant -/

/-- The neighbor chain starting at position `pos` partitions `[pos, total)`:
nodes are contiguous, non-empty and end exactly at `total`. -/
def isChainFrom (total : Nat) : Nat → List Node → Prop
  | pos, [] => pos = total
  | pos, n :: rest => n.offset = pos ∧ 1 ≤ n.size ∧ isChainFrom total (pos + n.size) rest

theorem isChainFrom_bounds {total pos : Nat} {l : List Node}
    (h : isChainFrom total pos l) :
    ∀ n ∈ l, pos ≤ n.offset ∧ n.offset + n.size ≤ total := by
  induction l generalizing pos with
  | nil => intro n hn; simp at hn
  | cons a rest ih =>
    obtain ⟨h1, h2, h3⟩ := h
    intro n hn
    rcases List.mem_cons.mp hn with rfl | hn
    · have := ih h3
      constructor
      · omega
      · by_cases hr : rest = []
        · subst hr; simp [isChainFrom] at h3; omega
        · obtain ⟨m, hm⟩ := List.exists_mem_of_ne_nil rest hr
          have := (ih h3) m hm
          omega
    · have := (ih h3) n hn
      omega

theorem isChainFrom_pairwise {total pos : Nat} {l : List Node}
    (h : isChainFrom total pos l) :
    l.Pairwise (fun a b => a.offset + a.size ≤ b.offset) := by
  induction l generalizing pos with
  | nil => exact List.Pairwise.nil
  | cons a rest ih =>
    obtain ⟨h1, h2, h3⟩ := h
    refine List.Pairwise.cons (fun b hb => ?_) (ih h3)
    have := (isChainFrom_bounds h3) b hb
    omega

/-- Each position of `[pos, total)` is covered by a chain node. -/
theorem isChainFrom_cover {total pos : Nat} {l : List Node}
    (h : isChainFrom total pos l) :
    ∀ x, pos ≤ x → x < total → ∃ n, n ∈ l ∧ n.offset ≤ x ∧ x < n.offset + n.size := by
  induction l generalizing pos with
  | nil => intro x hx1 hx2; simp [isChainFrom] at h; omega
  | cons a rest ih =>
    obtain ⟨h1, h2, h3⟩ := h
    intro x hx1 hx2
    by_cases hcase : x < a.offset + a.size
    · exact ⟨a, List.mem_cons_self a rest, by omega, hcase⟩
    · obtain ⟨n, hn1, hn2, hn3⟩ := ih h3 x (by omega) hx2
      exact ⟨n, List.mem_cons_of_mem a hn1, hn2, hn3⟩

theorem findNode_eq_some {i : Nat} {l : List Node} {n : Node}
    (h : findNode i l = some n) : n ∈ l ∧ n.idx = i := by
  induction l with
  | nil => simp [findNode] at h
  | cons a rest ih =>
    rw [findNode] at h
    by_cases ha : a.idx = i
    · simp [ha] at h; subst h; exact ⟨List.mem_cons_self a rest, ha⟩
    · simp [ha] at h
      obtain ⟨h1, h2⟩ := ih h
      exact ⟨List.mem_cons_of_mem a h1, h2⟩

theorem findNode_eq_none {i : Nat} {l : List Node}
    (h : findNode i l = none) : ∀ n ∈ l, n.idx ≠ i := by
  induction l with
  | nil => intro n hn; simp at hn
  | cons a rest ih =>
    rw [findNode] at h
    by_cases ha : a.idx = i
    · simp [ha] at h
    · simp [ha] at h
      intro n hn
      rcases List.mem_cons.mp hn with rfl | hn
      · exact ha
      · exact ih h n hn

theorem findNode_of_mem {l : List Node} {n : Node}
    (hnodup : (chainIdxs l).Nodup) (hmem : n ∈ l) : findNode n.idx l = some n := by
  induction l with
  | nil => simp at hmem
  | cons a rest ih =>
    rw [findNode]
    rcases List.mem_cons.mp hmem with rfl | hmem
    · simp
    · have ha : a.idx ≠ n.idx := by
        intro hcontra
        have : n.idx ∈ chainIdxs rest := List.mem_map_of_mem Node.idx hmem
        rw [chainIdxs, List.map_cons] at hnodup
        exact (List.nodup_cons.mp hnodup).1 (hcontra ▸ this)
      simp [ha]
      exact ih (by rw [chainIdxs, List.map_cons] at hnodup; exact (List.nodup_cons.mp hnodup).2)
        hmem

/-- The allocator invariant: chain partition, free-byte accounting,
bin/chain/free-slot consistency.  These are the spec's §3 invariants plus the
bookkeeping facts needed to preserve them. -/
structure Inv (st : AllocState) : Prop where
  size_pos : 1 ≤ st.totalSize
  maxAllocs_pos : 1 ≤ st.maxAllocs
  partition : isChainFrom st.totalSize 0 st.chain
  accounting : sumFree st.chain = st.freeStorage
  chain_nodup : (chainIdxs st.chain).Nodup
  bins_sound : ∀ b i, i ∈ st.bins b →
    ∃ n, n ∈ st.chain ∧ n.idx = i ∧ n.used = false ∧ floorBinOf n.size = b
  bins_complete : ∀ n, n ∈ st.chain → n.used = false →
    n.idx ∈ st.bins (floorBinOf n.size)
  bins_nodup : ∀ b, (st.bins b).Nodup
  bins_disjoint : ∀ b b' i, i ∈ st.bins b → i ∈ st.bins b' → b = b'
  slots_nodup : st.freeSlots.Nodup
  slots_fresh : ∀ j, j ∈ st.freeSlots → j ∉ chainIdxs st.chain

/-! ### Effect of the allocate chain surgery -/

theorem chainIdxs_nil : chainIdxs [] = [] := rfl

theorem chainIdxs_cons (a : Node) (l : List Node) :
    chainIdxs (a :: l) = a.idx :: chainIdxs l := rfl

theorem idx_unique {l : List Node} (h : (chainIdxs l).Nodup) {n1 n2 : Node}
    (h1 : n1 ∈ l) (h2 : n2 ∈ l) (heq : n1.idx = n2.idx) : n1 = n2 := by
  have e1 := findNode_of_mem h h1
  have e2 := findNode_of_mem h h2
  rw [heq, e2] at e1
  exact (Option.some_injective _ e1).symm

theorem allocAt_partition {total pos i s j : Nat} {l : List Node} {n : Node}
    (hfind : findNode i l = some n) (hs : 1 ≤ s) (hsn : s ≤ n.size)
    (h : isChainFrom total pos l) : isChainFrom total pos (allocAt i s j l) := by
  induction l generalizing pos with
  | nil => simp [findNode] at hfind
  | cons a rest ih =>
    rw [findNode] at hfind
    rw [allocAt]
    obtain ⟨h1, h2, h3⟩ := h
    by_cases ha : a.idx = i
    · subst ha
      rw [if_pos rfl] at hfind ⊢
      obtain rfl : a = n := by simpa using hfind
      by_cases hsplit : s < a.size
      · rw [if_pos hsplit]
        refine ⟨h1, hs, by simp [h1], by show 1 ≤ a.size - s; omega, ?_⟩
        have harith : pos + s + (a.size - s) = pos + a.size := by omega
        rw [harith]
        exact h3
      · rw [if_neg hsplit]
        refine ⟨h1, hs, ?_⟩
        have harith : pos + s = pos + a.size := by omega
        rw [harith]
        exact h3
    · rw [if_neg ha] at hfind ⊢
      exact ⟨h1, h2, ih hfind h3⟩

theorem allocAt_sumFree {i s j : Nat} {l : List Node} {n : Node}
    (hfind : findNode i l = some n) (hused : n.used = false) (hsn : s ≤ n.size) :
    sumFree (allocAt i s j l) + s = sumFree l := by
  induction l with
  | nil => simp [findNode] at hfind
  | cons a rest ih =>
    rw [findNode] at hfind
    rw [allocAt]
    by_cases ha : a.idx = i
    · subst ha
      rw [if_pos rfl] at hfind
      obtain rfl : a = n := by simpa using hfind
      by_cases hsplit : s < a.size
      · rw [if_pos rfl, if_pos hsplit]
        simp only [sumFree, hused]
        simp
        omega
      · rw [if_pos rfl, if_neg hsplit]
        simp only [sumFree, hused]
        simp
        omega
    · rw [if_neg ha] at hfind
      rw [if_neg ha]
      simp only [sumFree]
      have := ih hfind
      omega

theorem allocAt_idxs_split {i s j : Nat} {l : List Node} {n : Node}
    (hfind : findNode i l = some n) (hsplit : s < n.size) :
    (chainIdxs (allocAt i s j l)).Perm (j :: chainIdxs l) := by
  induction l with
  | nil => simp [findNode] at hfind
  | cons a rest ih =>
    rw [findNode] at hfind
    rw [allocAt]
    by_cases ha : a.idx = i
    · subst ha
      rw [if_pos rfl] at hfind
      obtain rfl : a = n := by simpa using hfind
      rw [if_pos rfl, if_pos hsplit]
      rw [chainIdxs_cons, chainIdxs_cons, chainIdxs_cons]
      exact List.Perm.swap j a.idx (chainIdxs rest)
    · rw [if_neg ha] at hfind
      rw [if_neg ha, chainIdxs_cons, chainIdxs_cons]
      exact List.Perm.trans (List.Perm.cons a.idx (ih hfind))
        (List.Perm.swap j a.idx (chainIdxs rest))

theorem allocAt_idxs_nosplit {i s j : Nat} {l : List Node} {n : Node}
    (hfind : findNode i l = some n) (hsplit : ¬ s < n.size) :
    chainIdxs (allocAt i s j l) = chainIdxs l := by
  induction l with
  | nil => simp [findNode] at hfind
  | cons a rest ih =>
    rw [findNode] at hfind
    rw [allocAt]
    by_cases ha : a.idx = i
    · subst ha
      rw [if_pos rfl] at hfind
      obtain rfl : a = n := by simpa using hfind
      rw [if_pos rfl, if_neg hsplit, chainIdxs_cons, chainIdxs_cons]
    · rw [if_neg ha] at hfind
      rw [if_neg ha, chainIdxs_cons, chainIdxs_cons, ih hfind]

theorem allocAt_mem {i s j : Nat} {l : List Node} {n : Node}
    (hnodup : (chainIdxs l).Nodup) (hfind : findNode i l = some n) :
    ∀ x ∈ allocAt i s j l,
      (x ∈ l ∧ x.idx ≠ i) ∨ x = { n with size := s, used := true } ∨
        (s < n.size ∧ x = ⟨j, n.offset + s, n.size - s, false⟩) := by
  induction l with
  | nil => simp [findNode] at hfind
  | cons a rest ih =>
    rw [findNode] at hfind
    rw [allocAt]
    rw [chainIdxs_cons, List.nodup_cons] at hnodup
    obtain ⟨hanotin, hnodup'⟩ := hnodup
    by_cases ha : a.idx = i
    · subst ha
      rw [if_pos rfl] at hfind
      obtain rfl : a = n := by simpa using hfind
      rw [if_pos rfl]
      intro x hx
      by_cases hsplit : s < a.size
      · rw [if_pos hsplit] at hx
        rcases List.mem_cons.mp hx with rfl | hx
        · right; left; rfl
        · rcases List.mem_cons.mp hx with rfl | hx
          · right; right; exact ⟨hsplit, rfl⟩
          · left
            refine ⟨List.mem_cons_of_mem a hx, fun hcontra => ?_⟩
            exact hanotin (hcontra ▸ List.mem_map_of_mem Node.idx hx)
      · rw [if_neg hsplit] at hx
        rcases List.mem_cons.mp hx with rfl | hx
        · right; left; rfl
        · left
          refine ⟨List.mem_cons_of_mem a hx, fun hcontra => ?_⟩
          exact hanotin (hcontra ▸ List.mem_map_of_mem Node.idx hx)
    · rw [if_neg ha] at hfind
      rw [if_neg ha]
      intro x hx
      rcases List.mem_cons.mp hx with rfl | hx
      · left; exact ⟨List.mem_cons_self x rest, ha⟩
      · rcases ih hnodup' hfind x hx with ⟨hx1, hx2⟩ | hrest
        · left; exact ⟨List.mem_cons_of_mem a hx1, hx2⟩
        · right; exact hrest

theorem allocAt_mem_of_ne {i s j : Nat} {l : List Node} {x : Node}
    (hx : x ∈ l) (hne : x.idx ≠ i) : x ∈ allocAt i s j l := by
  induction l with
  | nil => simp at hx
  | cons a rest ih =>
    rw [allocAt]
    rcases List.mem_cons.mp hx with rfl | hx
    · rw [if_neg hne]
      exact List.mem_cons_self x _
    · by_cases ha : a.idx = i
      · rw [if_pos ha]
        by_cases hsplit : s < a.size
        · rw [if_pos hsplit]
          exact List.mem_cons_of_mem _ (List.mem_cons_of_mem _ hx)
        · rw [if_neg hsplit]
          exact List.mem_cons_of_mem _ hx
      · rw [if_neg ha]
        exact List.mem_cons_of_mem a (ih hx)

theorem allocAt_mem_new {i s j : Nat} {l : List Node} {n : Node}
    (hfind : findNode i l = some n) :
    { n with size := s, used := true } ∈ allocAt i s j l ∧
      (s < n.size → (⟨j, n.offset + s, n.size - s, false⟩ : Node) ∈ allocAt i s j l) := by
  induction l with
  | nil => simp [findNode] at hfind
  | cons a rest ih =>
    rw [findNode] at hfind
    rw [allocAt]
    by_cases ha : a.idx = i
    · subst ha
      rw [if_pos rfl] at hfind
      obtain rfl : a = n := by simpa using hfind
      rw [if_pos rfl]
      by_cases hsplit : s < a.size
      · rw [if_pos hsplit]
        exact ⟨List.mem_cons_self _ _,
          fun _ => List.mem_cons_of_mem _ (List.mem_cons_self _ _)⟩
      · rw [if_neg hsplit]
        exact ⟨List.mem_cons_self _ _, fun hcontra => absurd hcontra hsplit⟩
    · rw [if_neg ha] at hfind
      rw [if_neg ha]
      obtain ⟨ih1, ih2⟩ := ih hfind
      exact ⟨List.mem_cons_of_mem a ih1, fun hl => List.mem_cons_of_mem a (ih2 hl)⟩

/-! ### Bin-table update helpers -/

theorem mem_updBins {bins : Nat → List Nat} {b : Nat} {l : List Nat} {b' i' : Nat} :
    i' ∈ updBins bins b l b' ↔ (b' = b ∧ i' ∈ l) ∨ (b' ≠ b ∧ i' ∈ bins b') := by
  unfold updBins
  by_cases hb : b' = b <;> simp [hb]

theorem bins_b_eq_cons {st : AllocState} {b i : Nat} (hi : (st.bins b).head? = some i) :
    st.bins b = i :: (st.bins b).tail := by
  cases hl : st.bins b with
  | nil => rw [hl] at hi; simp at hi
  | cons x t =>
    rw [hl] at hi
    simp at hi
    subst hi
    simp

/-- Preservation of the allocator invariant by `allocate`. -/
theorem inv_allocate {st : AllocState} (hinv : Inv st) (s : Nat) :
    Inv (allocate st s).2 := by
  rw [allocate]
  by_cases hs0 : s = 0
  · rw [if_pos hs0]; exact hinv
  rw [if_neg hs0]
  cases hcb : ceilBinOf s with
  | none => exact hinv
  | some cb =>
  simp only []
  cases hb : findBinFrom (fun b => !(st.bins b).isEmpty) cb (NUM_LEAF_BINS - cb) with
  | none => exact hinv
  | some b =>
  simp only []
  cases hi : (st.bins b).head? with
  | none => exact hinv
  | some i =>
  simp only []
  cases hn : findNode i st.chain with
  | none => exact hinv
  | some n =>
  simp only []
  -- the popped node really is the free node the bins point at
  have hii : i ∈ st.bins b := by
    rw [bins_b_eq_cons hi]
    exact List.mem_cons_self i _
  obtain ⟨n', hn'mem, hn'idx, hn'used, hn'floor⟩ := hinv.bins_sound b i hii
  obtain ⟨hnmem, hnidx⟩ := findNode_eq_some hn
  obtain rfl : n = n' := idx_unique hinv.chain_nodup hnmem hn'mem (by rw [hnidx, hn'idx])
  have hcbb : cb ≤ b := (findBinFrom_eq_some hb).2.1
  have hblt : b < NUM_LEAF_BINS := by
    have := (findBinFrom_eq_some hb).2.2.1
    omega
  have hsle : s ≤ n.size := ceil_le_size hcb (by rw [hn'floor]; exact hcbb)
  have hs1 : 1 ≤ s := by omega
  have htail_sub : ∀ x, x ∈ (st.bins b).tail → x ∈ st.bins b := by
    intro x hx
    rw [bins_b_eq_cons hi]
    exact List.mem_cons_of_mem i hx
  have hi_tail : i ∉ (st.bins b).tail := by
    have := hinv.bins_nodup b
    rw [bins_b_eq_cons hi] at this
    exact (List.nodup_cons.mp this).1
  -- an index in the bins after the head-pop is never `i`
  have hne_i : ∀ b' x, x ∈ updBins st.bins b ((st.bins b).tail) b' → x ≠ i := by
    intro b' x hx
    rcases mem_updBins.mp hx with ⟨rfl, hx⟩ | ⟨hb', hx⟩
    · intro hcontra; exact hi_tail (hcontra ▸ hx)
    · intro hcontra
      exact hb' (hinv.bins_disjoint b' b i (hcontra ▸ hx) hii)
  have hpop_sub : ∀ b' x, x ∈ updBins st.bins b ((st.bins b).tail) b' → x ∈ st.bins b' := by
    intro b' x hx
    rcases mem_updBins.mp hx with ⟨rfl, hx⟩ | ⟨hb', hx⟩
    · exact htail_sub x hx
    · exact hx
  have htail_nodup : ((st.bins b).tail).Nodup := by
    have hbn := hinv.bins_nodup b
    rw [bins_b_eq_cons hi] at hbn
    exact (List.nodup_cons.mp hbn).2
  by_cases hsplit : s < n.size
  · rw [if_pos hsplit]
    cases hslots : st.freeSlots with
    | nil => exact hinv
    | cons j slots =>
    simp only []
    have hjfresh : j ∉ chainIdxs st.chain :=
      hinv.slots_fresh j (by rw [hslots]; exact List.mem_cons_self j slots)
    have hjbins : ∀ b', j ∉ st.bins b' := by
      intro b' hcontra
      obtain ⟨m, hmmem, hmidx, -, -⟩ := hinv.bins_sound b' j hcontra
      exact hjfresh (hmidx ▸ List.mem_map_of_mem Node.idx hmmem)
    have hperm := allocAt_idxs_split (j := j) hn hsplit
    have hnewnodup : (chainIdxs (allocAt i s j st.chain)).Nodup := by
      refine (List.Perm.nodup_iff hperm).mpr ?_
      exact List.nodup_cons.mpr ⟨hjfresh, hinv.chain_nodup⟩
    refine ⟨hinv.size_pos, hinv.maxAllocs_pos, ?_, ?_, ?_, ?_, ?_, ?_, ?_, ?_, ?_⟩
    · exact allocAt_partition hn hs1 hsle hinv.partition
    · have := allocAt_sumFree (j := j) hn hn'used hsle
      have hacc := hinv.accounting
      simp only []
      omega
    · exact hnewnodup
    · -- bins_sound
      dsimp only
      intro b' i' hmem
      rcases mem_updBins.mp hmem with ⟨hbfb, hmem2⟩ | ⟨hb', hmem2⟩
      · rcases List.mem_cons.mp hmem2 with hij | hmem3
        · subst hij
          subst hbfb
          refine ⟨⟨i', n.offset + s, n.size - s, false⟩, (allocAt_mem_new hn).2 hsplit, rfl,
            rfl, rfl⟩
        · obtain ⟨m, hmmem, hmidx, hmused, hmfloor⟩ :=
            hinv.bins_sound _ i' (hpop_sub _ i' hmem3)
          subst hbfb
          refine ⟨m, allocAt_mem_of_ne hmmem ?_, hmidx, hmused, hmfloor⟩
          rw [hmidx]; exact hne_i _ i' hmem3
      · obtain ⟨m, hmmem, hmidx, hmused, hmfloor⟩ :=
          hinv.bins_sound _ i' (hpop_sub _ i' hmem2)
        refine ⟨m, allocAt_mem_of_ne hmmem ?_, hmidx, hmused, hmfloor⟩
        rw [hmidx]; exact hne_i _ i' hmem2
    · -- bins_complete
      dsimp only
      intro x hx hxused
      rcases allocAt_mem hinv.chain_nodup hn x hx with ⟨hxmem, hxne⟩ | hnew | ⟨-, rfl⟩
      · have hold := hinv.bins_complete x hxmem hxused
        rw [mem_updBins]
        by_cases hfb : floorBinOf x.size = floorBinOf (n.size - s)
        · left
          refine ⟨hfb, List.mem_cons_of_mem j ?_⟩
          rw [← hfb, mem_updBins]
          by_cases hxb : floorBinOf x.size = b
          · left
            refine ⟨hxb, ?_⟩
            have : x.idx ∈ i :: (st.bins b).tail := by
              rw [← bins_b_eq_cons hi, ← hxb]; exact hold
            rcases List.mem_cons.mp this with hcontra | hres
            · exact absurd hcontra hxne
            · exact hres
          · exact Or.inr ⟨hxb, hold⟩
        · right
          refine ⟨hfb, ?_⟩
          rw [mem_updBins]
          by_cases hxb : floorBinOf x.size = b
          · left
            refine ⟨hxb, ?_⟩
            have : x.idx ∈ i :: (st.bins b).tail := by
              rw [← bins_b_eq_cons hi, ← hxb]; exact hold
            rcases List.mem_cons.mp this with hcontra | hres
            · exact absurd hcontra hxne
            · exact hres
          · exact Or.inr ⟨hxb, hold⟩
      · rw [hnew] at hxused; simp at hxused
      · rw [mem_updBins]
        exact Or.inl ⟨rfl, List.mem_cons_self j _⟩
    · -- bins_nodup
      dsimp only
      intro b'
      simp only [updBins]
      by_cases h1 : b' = floorBinOf (n.size - s)
      · rw [if_pos h1]
        refine List.nodup_cons.mpr ⟨?_, ?_⟩
        · intro hcontra
          exact hjbins _ (hpop_sub _ j hcontra)
        · by_cases h2 : floorBinOf (n.size - s) = b
          · rw [if_pos h2]; exact htail_nodup
          · rw [if_neg h2]; exact hinv.bins_nodup _
      · rw [if_neg h1]
        by_cases h2 : b' = b
        · rw [if_pos h2]; exact htail_nodup
        · rw [if_neg h2]; exact hinv.bins_nodup _
    · -- bins_disjoint
      dsimp only
      intro b1 b2 i' h1 h2
      rcases mem_updBins.mp h1 with ⟨he1, h1a⟩ | ⟨hb1, h1a⟩
      · rcases List.mem_cons.mp h1a with hj1 | h1b
        · rcases mem_updBins.mp h2 with ⟨he2, h2a⟩ | ⟨hb2, h2a⟩
          · rw [he1, he2]
          · exact absurd (hpop_sub _ _ (hj1 ▸ h2a)) (hjbins _)
        · rcases mem_updBins.mp h2 with ⟨he2, h2a⟩ | ⟨hb2, h2a⟩
          · rw [he1, he2]
          · exact hinv.bins_disjoint _ _ i' (he1 ▸ hpop_sub _ _ h1b) (hpop_sub _ _ h2a)
      · rcases mem_updBins.mp h2 with ⟨he2, h2a⟩ | ⟨hb2, h2a⟩
        · rcases List.mem_cons.mp h2a with hj2 | h2b
          · exact absurd (hpop_sub _ _ (hj2 ▸ h1a)) (hjbins _)
          · exact (hinv.bins_disjoint _ _ i' (hpop_sub _ _ h1a) (hpop_sub _ _ h2b)).trans he2.symm
        · exact hinv.bins_disjoint _ _ i' (hpop_sub _ _ h1a) (hpop_sub _ _ h2a)
    · -- slots_nodup
      have := hinv.slots_nodup
      rw [hslots] at this
      exact (List.nodup_cons.mp this).2
    · -- slots_fresh
      intro x hx
      have hxslots : x ∈ st.freeSlots := by rw [hslots]; exact List.mem_cons_of_mem j hx
      have hxj : x ≠ j := by
        have := hinv.slots_nodup
        rw [hslots] at this
        intro hcontra
        exact (List.nodup_cons.mp this).1 (hcontra ▸ hx)
      intro hcontra
      rcases List.mem_cons.mp ((hperm.mem_iff).mp hcontra) with h | h
      · exact hxj h
      · exact hinv.slots_fresh x hxslots h
  · rw [if_neg hsplit]
    have hidxeq := allocAt_idxs_nosplit (j := 0) hn hsplit
    refine ⟨hinv.size_pos, hinv.maxAllocs_pos, ?_, ?_, ?_, ?_, ?_, ?_, ?_, ?_, ?_⟩
    · exact allocAt_partition hn hs1 hsle hinv.partition
    · have := allocAt_sumFree (j := 0) hn hn'used hsle
      have hacc := hinv.accounting
      simp only []
      omega
    · rw [hidxeq]; exact hinv.chain_nodup
    · -- bins_sound
      dsimp only
      intro b' i' hmem
      obtain ⟨m, hmmem, hmidx, hmused, hmfloor⟩ := hinv.bins_sound _ i' (hpop_sub _ i' hmem)
      refine ⟨m, allocAt_mem_of_ne hmmem ?_, hmidx, hmused, hmfloor⟩
      rw [hmidx]; exact hne_i _ i' hmem
    · -- bins_complete
      dsimp only
      intro x hx hxused
      rcases allocAt_mem hinv.chain_nodup hn x hx with ⟨hxmem, hxne⟩ | hnew | ⟨hcontra, -⟩
      · have hold := hinv.bins_complete x hxmem hxused
        rw [mem_updBins]
        by_cases hxb : floorBinOf x.size = b
        · left
          refine ⟨hxb, ?_⟩
          have : x.idx ∈ i :: (st.bins b).tail := by
            rw [← bins_b_eq_cons hi, ← hxb]; exact hold
          rcases List.mem_cons.mp this with hcontra | hres
          · exact absurd hcontra hxne
          · exact hres
        · exact Or.inr ⟨hxb, hold⟩
      · rw [hnew] at hxused; simp at hxused
      · exact absurd hcontra hsplit
    · -- bins_nodup
      dsimp only
      intro b'
      simp only [updBins]
      by_cases h2 : b' = b
      · rw [if_pos h2]; exact htail_nodup
      · rw [if_neg h2]; exact hinv.bins_nodup _
    · -- bins_disjoint
      dsimp only
      intro b1 b2 i' h1 h2
      exact hinv.bins_disjoint _ _ i' (hpop_sub _ _ h1) (hpop_sub _ _ h2)
    · exact hinv.slots_nodup
    · intro x hx
      rw [hidxeq]
      exact hinv.slots_fresh x hx

/-! ### Effect of the free/coalescing chain surgery -/

theorem idx_ne_of_nodup_cons {a : Node} {L : List Node}
    (h : (chainIdxs (a :: L)).Nodup) : ∀ x ∈ L, x.idx ≠ a.idx := by
  rw [chainIdxs_cons, List.nodup_cons] at h
  intro x hx hcontra
  exact h.1 (hcontra ▸ List.mem_map_of_mem Node.idx hx)

theorem freeAt_eq_none {i : Nat} (l : List Node) (h : freeAt i l = none) :
    findNode i l = none := by
  induction l using freeAt.induct (i := i) with
  | case1 => rfl
  | case2 n hn => simp [freeAt, hn] at h
  | case3 n hn => simp [findNode, hn]
  | case4 n m rest hn hm => simp [freeAt, hn, hm] at h
  | case5 n m rest hn hm => simp [freeAt, hn, hm] at h
  | case6 n m hn hm hu => simp [freeAt, hn, hm, hu] at h
  | case7 n m hn hm hu => simp [freeAt, hn, hm, hu] at h
  | case8 n m hn hm q rest hnu hqu => simp [freeAt, hn, hm, hnu, hqu] at h
  | case9 n m hn hm q rest hnu hqu => simp [freeAt, hn, hm, hnu, hqu] at h
  | case10 n m hn hm q rest hnu hqu => simp [freeAt, hn, hm, hnu, hqu] at h
  | case11 n m hn hm q rest hnu hqu => simp [freeAt, hn, hm, hnu, hqu] at h
  | case12 n m rest hn hm fo' hfo' ih => simp [freeAt, hn, hm, hfo'] at h
  | case13 n m rest hn hm hnone ih =>
    rw [findNode, if_neg hn]
    exact ih hnone

theorem freeAt_partition {total i : Nat} (l : List Node) :
    ∀ {pos : Nat} {fo : FreeOut}, isChainFrom total pos l → freeAt i l = some fo →
      isChainFrom total pos fo.chain := by
  induction l using freeAt.induct (i := i) with
  | case1 => intro pos fo h hfree; simp [freeAt] at hfree
  | case2 n hn =>
    intro pos fo h hfree
    simp [freeAt, hn] at hfree
    subst hfree
    simp only [isChainFrom]
    exact h
  | case3 n hn => intro pos fo h hfree; simp [freeAt, hn] at hfree
  | case4 n m rest hn hm =>
    intro pos fo h hfree
    simp [freeAt, hn, hm] at hfree
    subst hfree
    simp only [isChainFrom]
    exact h
  | case5 n m rest hn hm =>
    intro pos fo h hfree
    simp [freeAt, hn, hm] at hfree
    subst hfree
    simp only [isChainFrom]
    obtain ⟨h1, h2, h3, h4, h5⟩ := h
    refine ⟨h1, by omega, ?_⟩
    show isChainFrom total (pos + (n.size + m.size)) rest
    rw [← Nat.add_assoc]
    exact h5
  | case6 n m hn hm hu =>
    intro pos fo h hfree
    simp [freeAt, hn, hm, hu] at hfree
    subst hfree
    simp only [isChainFrom]
    exact h
  | case7 n m hn hm hu =>
    intro pos fo h hfree
    simp [freeAt, hn, hm, hu] at hfree
    subst hfree
    simp only [isChainFrom]
    obtain ⟨h1, h2, h3, h4, h5⟩ := h
    simp only [isChainFrom] at h5
    exact ⟨h1, by omega, by show pos + (n.size + m.size) = total; omega⟩
  | case8 n m hn hm q rest hnu hqu =>
    intro pos fo h hfree
    simp [freeAt, hn, hm, hnu, hqu] at hfree
    subst hfree
    simp only [isChainFrom]
    exact h
  | case9 n m hn hm q rest hnu hqu =>
    intro pos fo h hfree
    simp [freeAt, hn, hm, hnu, hqu] at hfree
    subst hfree
    simp only [isChainFrom]
    obtain ⟨h1, h2, h3, h4, h5, h6, h7⟩ := h
    refine ⟨h1, h2, h3, by omega, ?_⟩
    show isChainFrom total (pos + n.size + (m.size + q.size)) rest
    rw [← Nat.add_assoc]
    exact h7
  | case10 n m hn hm q rest hnu hqu =>
    intro pos fo h hfree
    simp [freeAt, hn, hm, hnu, hqu] at hfree
    subst hfree
    simp only [isChainFrom]
    obtain ⟨h1, h2, h3, h4, h5, h6, h7⟩ := h
    refine ⟨h1, by omega, by omega, h6, ?_⟩
    show isChainFrom total (pos + (n.size + m.size) + q.size) rest
    have : pos + (n.size + m.size) + q.size = pos + n.size + m.size + q.size := by omega
    rw [this]
    exact h7
  | case11 n m hn hm q rest hnu hqu =>
    intro pos fo h hfree
    simp [freeAt, hn, hm, hnu, hqu] at hfree
    subst hfree
    simp only [isChainFrom]
    obtain ⟨h1, h2, h3, h4, h5, h6, h7⟩ := h
    refine ⟨h1, by omega, ?_⟩
    show isChainFrom total (pos + (n.size + m.size + q.size)) rest
    have : pos + (n.size + m.size + q.size) = pos + n.size + m.size + q.size := by omega
    rw [this]
    exact h7
  | case12 n m rest hn hm fo' hfo' ih =>
    intro pos fo h hfree
    simp [freeAt, hn, hm, hfo'] at hfree
    subst hfree
    simp only [isChainFrom]
    obtain ⟨h1, h2, h3⟩ := h
    exact ⟨h1, h2, ih h3 hfo'⟩
  | case13 n m rest hn hm hnone ih =>
    intro pos fo h hfree
    simp [freeAt, hn, hm, hnone] at hfree

theorem freeAt_sumFree {i : Nat} (l : List Node) :
    ∀ {nd : Node} {fo : FreeOut}, findNode i l = some nd → nd.used = true →
      freeAt i l = some fo → sumFree fo.chain = sumFree l + nd.size := by
  induction l using freeAt.induct (i := i) with
  | case1 => intro nd fo hfind hused hfree; simp [findNode] at hfind
  | case2 n hn =>
    intro nd fo hfind hused hfree
    rw [findNode, if_pos hn] at hfind
    obtain rfl : n = nd := by simpa using hfind
    simp [freeAt, hn] at hfree
    subst hfree
    simp [sumFree, hused]
  | case3 n hn => intro nd fo hfind hused hfree; simp [freeAt, hn] at hfree
  | case4 n m rest hn hm =>
    intro nd fo hfind hused hfree
    rw [findNode, if_pos hn] at hfind
    obtain rfl : n = nd := by simpa using hfind
    simp [freeAt, hn, hm] at hfree
    subst hfree
    simp [sumFree, hused]
    omega
  | case5 n m rest hn hm =>
    intro nd fo hfind hused hfree
    rw [findNode, if_pos hn] at hfind
    obtain rfl : n = nd := by simpa using hfind
    simp [freeAt, hn, hm] at hfree
    subst hfree
    simp only [Bool.not_eq_true] at hm
    simp [sumFree, hused, hm]
    omega
  | case6 n m hn hm hu =>
    intro nd fo hfind hused hfree
    rw [findNode, if_neg hn, findNode, if_pos hm] at hfind
    obtain rfl : m = nd := by simpa using hfind
    simp [freeAt, hn, hm, hu] at hfree
    subst hfree
    simp [sumFree, hused, hu]
  | case7 n m hn hm hu =>
    intro nd fo hfind hused hfree
    rw [findNode, if_neg hn, findNode, if_pos hm] at hfind
    obtain rfl : m = nd := by simpa using hfind
    simp [freeAt, hn, hm, hu] at hfree
    subst hfree
    simp only [Bool.not_eq_true] at hu
    simp [sumFree, hused, hu]
  | case8 n m hn hm q rest hnu hqu =>
    intro nd fo hfind hused hfree
    rw [findNode, if_neg hn, findNode, if_pos hm] at hfind
    obtain rfl : m = nd := by simpa using hfind
    simp [freeAt, hn, hm, hnu, hqu] at hfree
    subst hfree
    simp [sumFree, hused, hnu, hqu]
    omega
  | case9 n m hn hm q rest hnu hqu =>
    intro nd fo hfind hused hfree
    rw [findNode, if_neg hn, findNode, if_pos hm] at hfind
    obtain rfl : m = nd := by simpa using hfind
    simp [freeAt, hn, hm, hnu, hqu] at hfree
    subst hfree
    simp only [Bool.not_eq_true] at hqu
    simp [sumFree, hused, hnu, hqu]
    omega
  | case10 n m hn hm q rest hnu hqu =>
    intro nd fo hfind hused hfree
    rw [findNode, if_neg hn, findNode, if_pos hm] at hfind
    obtain rfl : m = nd := by simpa using hfind
    simp [freeAt, hn, hm, hnu, hqu] at hfree
    subst hfree
    simp only [Bool.not_eq_true] at hnu
    simp [sumFree, hused, hnu, hqu]
    omega
  | case11 n m hn hm q rest hnu hqu =>
    intro nd fo hfind hused hfree
    rw [findNode, if_neg hn, findNode, if_pos hm] at hfind
    obtain rfl : m = nd := by simpa using hfind
    simp [freeAt, hn, hm, hnu, hqu] at hfree
    subst hfree
    simp only [Bool.not_eq_true] at hnu hqu
    simp [sumFree, hused, hnu, hqu]
    omega
  | case12 n m rest hn hm fo' hfo' ih =>
    intro nd fo hfind hused hfree
    rw [findNode, if_neg hn] at hfind
    simp [freeAt, hn, hm, hfo'] at hfree
    subst hfree
    have := ih hfind hused hfo'
    dsimp only
    simp only [sumFree] at this ⊢
    omega
  | case13 n m rest hn hm hnone ih =>
    intro nd fo hfind hused hfree
    simp [freeAt, hn, hm, hnone] at hfree

theorem freeAt_released {i : Nat} (l : List Node) :
    ∀ {fo : FreeOut}, freeAt i l = some fo →
      ∀ r ∈ fo.released, r ∈ l ∧ r.used = false := by
  induction l using freeAt.induct (i := i) with
  | case1 => intro fo hfree; simp [freeAt] at hfree
  | case2 n hn =>
    intro fo hfree
    simp [freeAt, hn] at hfree
    subst hfree
    intro r hr
    simp at hr
  | case3 n hn => intro fo hfree; simp [freeAt, hn] at hfree
  | case4 n m rest hn hm =>
    intro fo hfree
    simp [freeAt, hn, hm] at hfree
    subst hfree
    intro r hr
    simp at hr
  | case5 n m rest hn hm =>
    intro fo hfree
    simp [freeAt, hn, hm] at hfree
    subst hfree
    intro r hr
    obtain rfl : r = m := by simpa using hr
    simp only [Bool.not_eq_true] at hm
    exact ⟨List.mem_cons_of_mem n (List.mem_cons_self r rest), hm⟩
  | case6 n m hn hm hu =>
    intro fo hfree
    simp [freeAt, hn, hm, hu] at hfree
    subst hfree
    intro r hr
    simp at hr
  | case7 n m hn hm hu =>
    intro fo hfree
    simp [freeAt, hn, hm, hu] at hfree
    subst hfree
    intro r hr
    obtain rfl : r = n := by simpa using hr
    simp only [Bool.not_eq_true] at hu
    exact ⟨List.mem_cons_self r [m], hu⟩
  | case8 n m hn hm q rest hnu hqu =>
    intro fo hfree
    simp [freeAt, hn, hm, hnu, hqu] at hfree
    subst hfree
    intro r hr
    simp at hr
  | case9 n m hn hm q rest hnu hqu =>
    intro fo hfree
    simp [freeAt, hn, hm, hnu, hqu] at hfree
    subst hfree
    intro r hr
    obtain rfl : r = q := by simpa using hr
    simp only [Bool.not_eq_true] at hqu
    refine ⟨?_, hqu⟩
    exact List.mem_cons_of_mem n (List.mem_cons_of_mem m (List.mem_cons_self r rest))
  | case10 n m hn hm q rest hnu hqu =>
    intro fo hfree
    simp [freeAt, hn, hm, hnu, hqu] at hfree
    subst hfree
    intro r hr
    obtain rfl : r = n := by simpa using hr
    simp only [Bool.not_eq_true] at hnu
    exact ⟨List.mem_cons_self r _, hnu⟩
  | case11 n m hn hm q rest hnu hqu =>
    intro fo hfree
    simp [freeAt, hn, hm, hnu, hqu] at hfree
    subst hfree
    intro r hr
    simp only [Bool.not_eq_true] at hnu hqu
    rcases List.mem_cons.mp hr with rfl | hr
    · exact ⟨List.mem_cons_self r _, hnu⟩
    · obtain rfl : r = q := by simpa using hr
      refine ⟨?_, hqu⟩
      exact List.mem_cons_of_mem n (List.mem_cons_of_mem m (List.mem_cons_self r rest))
  | case12 n m rest hn hm fo' hfo' ih =>
    intro fo hfree
    simp [freeAt, hn, hm, hfo'] at hfree
    subst hfree
    intro r hr
    obtain ⟨h1, h2⟩ := ih hfo' r hr
    exact ⟨List.mem_cons_of_mem n h1, h2⟩
  | case13 n m rest hn hm hnone ih =>
    intro fo hfree
    simp [freeAt, hn, hm, hnone] at hfree

theorem freeAt_idxs {i : Nat} (l : List Node) :
    ∀ {fo : FreeOut}, freeAt i l = some fo →
      (chainIdxs fo.chain ++ chainIdxs fo.released).Perm (chainIdxs l) := by
  induction l using freeAt.induct (i := i) with
  | case1 => intro fo hfree; simp [freeAt] at hfree
  | case2 n hn =>
    intro fo hfree
    simp [freeAt, hn] at hfree
    subst hfree
    simp [chainIdxs, hn]
  | case3 n hn => intro fo hfree; simp [freeAt, hn] at hfree
  | case4 n m rest hn hm =>
    intro fo hfree
    simp [freeAt, hn, hm] at hfree
    subst hfree
    simp [chainIdxs, hn]
  | case5 n m rest hn hm =>
    intro fo hfree
    simp [freeAt, hn, hm] at hfree
    subst hfree
    subst hn
    dsimp only
    rw [chainIdxs_cons, chainIdxs_cons, chainIdxs_cons, chainIdxs_cons, chainIdxs_nil,
      List.cons_append]
    exact List.Perm.cons n.idx (List.perm_append_singleton m.idx (chainIdxs rest))
  | case6 n m hn hm hu =>
    intro fo hfree
    simp [freeAt, hn, hm, hu] at hfree
    subst hfree
    simp [chainIdxs, hm]
  | case7 n m hn hm hu =>
    intro fo hfree
    simp [freeAt, hn, hm, hu] at hfree
    subst hfree
    subst hm
    dsimp only
    rw [chainIdxs_cons, chainIdxs_nil, chainIdxs_cons, chainIdxs_nil, chainIdxs_cons,
      chainIdxs_cons, chainIdxs_nil]
    exact List.Perm.swap n.idx m.idx []
  | case8 n m hn hm q rest hnu hqu =>
    intro fo hfree
    simp [freeAt, hn, hm, hnu, hqu] at hfree
    subst hfree
    simp [chainIdxs, hm]
  | case9 n m hn hm q rest hnu hqu =>
    intro fo hfree
    simp [freeAt, hn, hm, hnu, hqu] at hfree
    subst hfree
    subst hm
    dsimp only
    rw [chainIdxs_cons, chainIdxs_cons, chainIdxs_cons, chainIdxs_nil, chainIdxs_cons,
      chainIdxs_cons, chainIdxs_cons, List.cons_append, List.cons_append]
    exact List.Perm.cons n.idx
      (List.Perm.cons m.idx (List.perm_append_singleton q.idx (chainIdxs rest)))
  | case10 n m hn hm q rest hnu hqu =>
    intro fo hfree
    simp [freeAt, hn, hm, hnu, hqu] at hfree
    subst hfree
    subst hm
    dsimp only
    rw [chainIdxs_cons, chainIdxs_cons, chainIdxs_cons, chainIdxs_nil, chainIdxs_cons,
      chainIdxs_cons, chainIdxs_cons, List.cons_append, List.cons_append]
    refine List.Perm.trans (List.Perm.cons m.idx
      (List.Perm.cons q.idx (List.perm_append_singleton n.idx (chainIdxs rest)))) ?_
    refine List.Perm.trans (List.Perm.cons m.idx (List.Perm.swap n.idx q.idx _)) ?_
    exact List.Perm.swap n.idx m.idx _
  | case11 n m hn hm q rest hnu hqu =>
    intro fo hfree
    simp [freeAt, hn, hm, hnu, hqu] at hfree
    subst hfree
    subst hm
    dsimp only
    rw [chainIdxs_cons, chainIdxs_cons, chainIdxs_cons, chainIdxs_nil, chainIdxs_cons,
      chainIdxs_cons, chainIdxs_cons, List.cons_append]
    refine List.Perm.trans (List.Perm.cons m.idx
      (@List.perm_append_comm _ (chainIdxs rest) [n.idx, q.idx])) ?_
    exact List.Perm.swap n.idx m.idx _
  | case12 n m rest hn hm fo' hfo' ih =>
    intro fo hfree
    simp [freeAt, hn, hm, hfo'] at hfree
    subst hfree
    dsimp only
    rw [chainIdxs_cons, List.cons_append, chainIdxs_cons]
    exact List.Perm.cons n.idx (ih hfo')
  | case13 n m rest hn hm hnone ih =>
    intro fo hfree
    simp [freeAt, hn, hm, hnone] at hfree

theorem freeAt_combined {i : Nat} (l : List Node) :
    ∀ {fo : FreeOut}, freeAt i l = some fo →
      ∃ c, c ∈ fo.chain ∧ c.idx = i ∧ c.used = false ∧ c.size = fo.newSize := by
  induction l using freeAt.induct (i := i) with
  | case1 => intro fo hfree; simp [freeAt] at hfree
  | case2 n hn =>
    intro fo hfree
    subst hn
    simp [freeAt] at hfree
    subst hfree
    exact ⟨{ n with used := false }, List.mem_cons_self _ _, rfl, rfl, rfl⟩
  | case3 n hn => intro fo hfree; simp [freeAt, hn] at hfree
  | case4 n m rest hn hm =>
    intro fo hfree
    subst hn
    simp [freeAt, hm] at hfree
    subst hfree
    exact ⟨{ n with used := false }, List.mem_cons_self _ _, rfl, rfl, rfl⟩
  | case5 n m rest hn hm =>
    intro fo hfree
    subst hn
    simp [freeAt, hm] at hfree
    subst hfree
    exact ⟨⟨n.idx, n.offset, n.size + m.size, false⟩, List.mem_cons_self _ _, rfl, rfl, rfl⟩
  | case6 n m hn hm hu =>
    intro fo hfree
    subst hm
    simp [freeAt, hn, hu] at hfree
    subst hfree
    exact ⟨{ m with used := false }, List.mem_cons_of_mem n (List.mem_cons_self _ _),
      rfl, rfl, rfl⟩
  | case7 n m hn hm hu =>
    intro fo hfree
    subst hm
    simp [freeAt, hn, hu] at hfree
    subst hfree
    exact ⟨⟨m.idx, n.offset, n.size + m.size, false⟩, List.mem_cons_self _ _, rfl, rfl, rfl⟩
  | case8 n m hn hm q rest hnu hqu =>
    intro fo hfree
    subst hm
    simp [freeAt, hn, hnu, hqu] at hfree
    subst hfree
    exact ⟨{ m with used := false }, List.mem_cons_of_mem n (List.mem_cons_self _ _),
      rfl, rfl, rfl⟩
  | case9 n m hn hm q rest hnu hqu =>
    intro fo hfree
    subst hm
    simp [freeAt, hn, hnu, hqu] at hfree
    subst hfree
    exact ⟨⟨m.idx, m.offset, m.size + q.size, false⟩,
      List.mem_cons_of_mem n (List.mem_cons_self _ _), rfl, rfl, rfl⟩
  | case10 n m hn hm q rest hnu hqu =>
    intro fo hfree
    subst hm
    simp [freeAt, hn, hnu, hqu] at hfree
    subst hfree
    exact ⟨⟨m.idx, n.offset, n.size + m.size, false⟩, List.mem_cons_self _ _, rfl, rfl, rfl⟩
  | case11 n m hn hm q rest hnu hqu =>
    intro fo hfree
    subst hm
    simp [freeAt, hn, hnu, hqu] at hfree
    subst hfree
    exact ⟨⟨m.idx, n.offset, n.size + m.size + q.size, false⟩, List.mem_cons_self _ _,
      rfl, rfl, rfl⟩
  | case12 n m rest hn hm fo' hfo' ih =>
    intro fo hfree
    simp [freeAt, hn, hm, hfo'] at hfree
    subst hfree
    obtain ⟨c, hc1, hc2, hc3, hc4⟩ := ih hfo'
    exact ⟨c, List.mem_cons_of_mem n hc1, hc2, hc3, hc4⟩
  | case13 n m rest hn hm hnone ih =>
    intro fo hfree
    simp [freeAt, hn, hm, hnone] at hfree

theorem freeAt_mem_fwd {i : Nat} (l : List Node) :
    ∀ {fo : FreeOut}, (chainIdxs l).Nodup → freeAt i l = some fo →
      ∀ x ∈ fo.chain, x.idx = i ∨ (x ∈ l ∧ x.idx ≠ i) := by
  induction l using freeAt.induct (i := i) with
  | case1 => intro fo hnd hfree; simp [freeAt] at hfree
  | case2 n hn =>
    intro fo hnd hfree
    subst hn
    simp [freeAt] at hfree
    subst hfree
    intro x hx
    obtain rfl : x = { n with used := false } := by simpa using hx
    left; rfl
  | case3 n hn => intro fo hnd hfree; simp [freeAt, hn] at hfree
  | case4 n m rest hn hm =>
    intro fo hnd hfree
    subst hn
    simp [freeAt, hm] at hfree
    subst hfree
    intro x hx
    rcases List.mem_cons.mp hx with rfl | hx
    · left; rfl
    · right
      exact ⟨List.mem_cons_of_mem n hx, idx_ne_of_nodup_cons hnd x hx⟩
  | case5 n m rest hn hm =>
    intro fo hnd hfree
    subst hn
    simp [freeAt, hm] at hfree
    subst hfree
    intro x hx
    rcases List.mem_cons.mp hx with rfl | hx
    · left; rfl
    · right
      exact ⟨List.mem_cons_of_mem n (List.mem_cons_of_mem m hx),
        idx_ne_of_nodup_cons hnd x (List.mem_cons_of_mem m hx)⟩
  | case6 n m hn hm hu =>
    intro fo hnd hfree
    subst hm
    simp [freeAt, hn, hu] at hfree
    subst hfree
    intro x hx
    rcases List.mem_cons.mp hx with rfl | hx
    · right; exact ⟨List.mem_cons_self _ _, hn⟩
    · obtain rfl : x = { m with used := false } := by simpa using hx
      left; rfl
  | case7 n m hn hm hu =>
    intro fo hnd hfree
    subst hm
    simp [freeAt, hn, hu] at hfree
    subst hfree
    intro x hx
    obtain rfl : x = ⟨m.idx, n.offset, n.size + m.size, false⟩ := by simpa using hx
    left; rfl
  | case8 n m hn hm q rest hnu hqu =>
    intro fo hnd hfree
    subst hm
    simp [freeAt, hn, hnu, hqu] at hfree
    subst hfree
    intro x hx
    have hnd' : (chainIdxs (m :: q :: rest)).Nodup := by
      rw [chainIdxs_cons, List.nodup_cons] at hnd
      exact hnd.2
    rcases List.mem_cons.mp hx with rfl | hx
    · right; exact ⟨List.mem_cons_self _ _, hn⟩
    · rcases List.mem_cons.mp hx with rfl | hx
      · left; rfl
      · right
        exact ⟨List.mem_cons_of_mem n (List.mem_cons_of_mem m hx),
          idx_ne_of_nodup_cons hnd' x hx⟩
  | case9 n m hn hm q rest hnu hqu =>
    intro fo hnd hfree
    subst hm
    simp [freeAt, hn, hnu, hqu] at hfree
    subst hfree
    intro x hx
    have hnd' : (chainIdxs (m :: q :: rest)).Nodup := by
      rw [chainIdxs_cons, List.nodup_cons] at hnd
      exact hnd.2
    rcases List.mem_cons.mp hx with rfl | hx
    · right; exact ⟨List.mem_cons_self _ _, hn⟩
    · rcases List.mem_cons.mp hx with rfl | hx
      · left; rfl
      · right
        exact ⟨List.mem_cons_of_mem n (List.mem_cons_of_mem m
          (List.mem_cons_of_mem q hx)),
          idx_ne_of_nodup_cons hnd' x (List.mem_cons_of_mem q hx)⟩
  | case10 n m hn hm q rest hnu hqu =>
    intro fo hnd hfree
    subst hm
    simp [freeAt, hn, hnu, hqu] at hfree
    subst hfree
    intro x hx
    have hnd' : (chainIdxs (m :: q :: rest)).Nodup := by
      rw [chainIdxs_cons, List.nodup_cons] at hnd
      exact hnd.2
    rcases List.mem_cons.mp hx with rfl | hx
    · left; rfl
    · rcases List.mem_cons.mp hx with rfl | hx
      · right
        exact ⟨List.mem_cons_of_mem n (List.mem_cons_of_mem m (List.mem_cons_self _ _)),
          idx_ne_of_nodup_cons hnd' x (List.mem_cons_self _ _)⟩
      · right
        exact ⟨List.mem_cons_of_mem n (List.mem_cons_of_mem m
          (List.mem_cons_of_mem q hx)),
          idx_ne_of_nodup_cons hnd' x (List.mem_cons_of_mem q hx)⟩
  | case11 n m hn hm q rest hnu hqu =>
    intro fo hnd hfree
    subst hm
    simp [freeAt, hn, hnu, hqu] at hfree
    subst hfree
    intro x hx
    have hnd' : (chainIdxs (m :: q :: rest)).Nodup := by
      rw [chainIdxs_cons, List.nodup_cons] at hnd
      exact hnd.2
    rcases List.mem_cons.mp hx with rfl | hx
    · left; rfl
    · right
      exact ⟨List.mem_cons_of_mem n (List.mem_cons_of_mem m
        (List.mem_cons_of_mem q hx)),
        idx_ne_of_nodup_cons hnd' x (List.mem_cons_of_mem q hx)⟩
  | case12 n m rest hn hm fo' hfo' ih =>
    intro fo hnd hfree
    simp [freeAt, hn, hm, hfo'] at hfree
    subst hfree
    intro x hx
    dsimp only at hx
    have hnd' : (chainIdxs (m :: rest)).Nodup := by
      rw [chainIdxs_cons, List.nodup_cons] at hnd
      exact hnd.2
    rcases List.mem_cons.mp hx with rfl | hx
    · right; exact ⟨List.mem_cons_self _ _, hn⟩
    · rcases ih hnd' hfo' x hx with h | ⟨h1, h2⟩
      · left; exact h
      · right; exact ⟨List.mem_cons_of_mem n h1, h2⟩
  | case13 n m rest hn hm hnone ih =>
    intro fo hnd hfree
    simp [freeAt, hn, hm, hnone] at hfree

theorem freeAt_mem_bwd {i : Nat} (l : List Node) :
    ∀ {fo : FreeOut}, freeAt i l = some fo →
      ∀ x ∈ l, x.idx ≠ i → x.idx ∉ chainIdxs fo.released → x ∈ fo.chain := by
  induction l using freeAt.induct (i := i) with
  | case1 => intro fo hfree; simp [freeAt] at hfree
  | case2 n hn =>
    intro fo hfree
    subst hn
    simp [freeAt] at hfree
    subst hfree
    intro x hx hxne hxrel
    obtain rfl : x = n := by simpa using hx
    exact absurd rfl hxne
  | case3 n hn => intro fo hfree; simp [freeAt, hn] at hfree
  | case4 n m rest hn hm =>
    intro fo hfree
    subst hn
    simp [freeAt, hm] at hfree
    subst hfree
    intro x hx hxne hxrel
    rcases List.mem_cons.mp hx with rfl | hx
    · exact absurd rfl hxne
    · exact List.mem_cons_of_mem _ hx
  | case5 n m rest hn hm =>
    intro fo hfree
    subst hn
    simp [freeAt, hm] at hfree
    subst hfree
    intro x hx hxne hxrel
    dsimp only at hxrel
    rw [chainIdxs_cons, chainIdxs_nil] at hxrel
    rcases List.mem_cons.mp hx with rfl | hx
    · exact absurd rfl hxne
    · rcases List.mem_cons.mp hx with rfl | hx
      · exact absurd (List.mem_cons_self x.idx []) hxrel
      · exact List.mem_cons_of_mem _ hx
  | case6 n m hn hm hu =>
    intro fo hfree
    subst hm
    simp [freeAt, hn, hu] at hfree
    subst hfree
    intro x hx hxne hxrel
    rcases List.mem_cons.mp hx with rfl | hx
    · exact List.mem_cons_self _ _
    · obtain rfl : x = m := by simpa using hx
      exact absurd rfl hxne
  | case7 n m hn hm hu =>
    intro fo hfree
    subst hm
    simp [freeAt, hn, hu] at hfree
    subst hfree
    intro x hx hxne hxrel
    dsimp only at hxrel
    rw [chainIdxs_cons, chainIdxs_nil] at hxrel
    rcases List.mem_cons.mp hx with rfl | hx
    · exact absurd (List.mem_cons_self x.idx _) hxrel
    · obtain rfl : x = m := by simpa using hx
      exact absurd rfl hxne
  | case8 n m hn hm q rest hnu hqu =>
    intro fo hfree
    subst hm
    simp [freeAt, hn, hnu, hqu] at hfree
    subst hfree
    intro x hx hxne hxrel
    rcases List.mem_cons.mp hx with rfl | hx
    · exact List.mem_cons_self _ _
    · rcases List.mem_cons.mp hx with rfl | hx
      · exact absurd rfl hxne
      · exact List.mem_cons_of_mem _ (List.mem_cons_of_mem _ hx)
  | case9 n m hn hm q rest hnu hqu =>
    intro fo hfree
    subst hm
    simp [freeAt, hn, hnu, hqu] at hfree
    subst hfree
    intro x hx hxne hxrel
    dsimp only at hxrel
    rw [chainIdxs_cons, chainIdxs_nil] at hxrel
    rcases List.mem_cons.mp hx with rfl | hx
    · exact List.mem_cons_self _ _
    · rcases List.mem_cons.mp hx with rfl | hx
      · exact absurd rfl hxne
      · rcases List.mem_cons.mp hx with rfl | hx
        · exact absurd (List.mem_cons_self x.idx []) hxrel
        · exact List.mem_cons_of_mem _ (List.mem_cons_of_mem _ hx)
  | case10 n m hn hm q rest hnu hqu =>
    intro fo hfree
    subst hm
    simp [freeAt, hn, hnu, hqu] at hfree
    subst hfree
    intro x hx hxne hxrel
    dsimp only at hxrel
    rw [chainIdxs_cons, chainIdxs_nil] at hxrel
    rcases List.mem_cons.mp hx with rfl | hx
    · exact absurd (List.mem_cons_self x.idx _) hxrel
    · rcases List.mem_cons.mp hx with rfl | hx
      · exact absurd rfl hxne
      · exact List.mem_cons_of_mem _ hx
  | case11 n m hn hm q rest hnu hqu =>
    intro fo hfree
    subst hm
    simp [freeAt, hn, hnu, hqu] at hfree
    subst hfree
    intro x hx hxne hxrel
    dsimp only at hxrel
    rw [chainIdxs_cons, chainIdxs_cons, chainIdxs_nil] at hxrel
    rcases List.mem_cons.mp hx with rfl | hx
    · exact absurd (List.mem_cons_self x.idx _) hxrel
    · rcases List.mem_cons.mp hx with rfl | hx
      · exact absurd rfl hxne
      · rcases List.mem_cons.mp hx with rfl | hx
        · exact absurd (List.mem_cons_of_mem n.idx (List.mem_cons_self x.idx [])) hxrel
        · exact List.mem_cons_of_mem _ hx
  | case12 n m rest hn hm fo' hfo' ih =>
    intro fo hfree
    simp [freeAt, hn, hm, hfo'] at hfree
    subst hfree
    intro x hx hxne hxrel
    dsimp only at hxrel ⊢
    rcases List.mem_cons.mp hx with rfl | hx
    · exact List.mem_cons_self _ _
    · exact List.mem_cons_of_mem _ (ih hfo' x hx hxne hxrel)
  | case13 n m rest hn hm hnone ih =>
    intro fo hfree
    simp [freeAt, hn, hm, hnone] at hfree

/-! ### Bin-erasure helpers and preservation of the invariant by `free` -/

theorem binsEraseNodes_subset {rs : List Node} :
    ∀ {bins : Nat → List Nat} {b x : Nat}, x ∈ binsEraseNodes bins rs b → x ∈ bins b := by
  induction rs with
  | nil => intro bins b x hx; exact hx
  | cons r rest ih =>
    intro bins b x hx
    rw [binsEraseNodes] at hx
    have := ih hx
    rcases mem_updBins.mp this with ⟨rfl, h⟩ | ⟨hb, h⟩
    · exact List.mem_of_mem_erase h
    · exact h

theorem binsEraseNodes_mem {rs : List Node} :
    ∀ {bins : Nat → List Nat} {b x : Nat}, x ∈ bins b → x ∉ chainIdxs rs →
      x ∈ binsEraseNodes bins rs b := by
  induction rs with
  | nil => intro bins b x hx _; exact hx
  | cons r rest ih =>
    intro bins b x hx hnotin
    rw [chainIdxs_cons] at hnotin
    have hxr : x ≠ r.idx := fun hc => hnotin (hc ▸ List.mem_cons_self _ _)
    have hxrest : x ∉ chainIdxs rest := fun hc => hnotin (List.mem_cons_of_mem _ hc)
    rw [binsEraseNodes]
    refine ih ?_ hxrest
    rw [mem_updBins]
    by_cases hb : b = floorBinOf r.size
    · subst hb
      exact Or.inl ⟨rfl, (List.mem_erase_of_ne hxr).mpr hx⟩
    · exact Or.inr ⟨hb, hx⟩

theorem binsEraseNodes_nodup {rs : List Node} :
    ∀ {bins : Nat → List Nat}, (∀ b, (bins b).Nodup) →
      ∀ b, (binsEraseNodes bins rs b).Nodup := by
  induction rs with
  | nil => intro bins h b; exact h b
  | cons r rest ih =>
    intro bins h b
    rw [binsEraseNodes]
    refine ih (fun b' => ?_) b
    rw [updBins]
    by_cases hb : b' = floorBinOf r.size
    · rw [if_pos hb]; exact List.Nodup.erase _ (h _)
    · rw [if_neg hb]; exact h b'

theorem binsEraseNodes_removed {rs : List Node} :
    ∀ {bins : Nat → List Nat}, (∀ b, (bins b).Nodup) →
      (∀ r ∈ rs, ∀ b, r.idx ∈ bins b → b = floorBinOf r.size) →
      ∀ r ∈ rs, ∀ b, r.idx ∉ binsEraseNodes bins rs b := by
  induction rs with
  | nil => intro bins _ _ r hr; simp at hr
  | cons r0 rest ih =>
    intro bins hnd hclass r hr b hmem
    rw [binsEraseNodes] at hmem
    rcases List.mem_cons.mp hr with rfl | hr
    · -- r0's index is gone from the updated table, and erasure only shrinks
      have : r.idx ∈ updBins bins (floorBinOf r.size) ((bins (floorBinOf r.size)).erase r.idx) b :=
        binsEraseNodes_subset hmem
      rcases mem_updBins.mp this with ⟨rfl, h⟩ | ⟨hb, h⟩
      · exact absurd ((List.Nodup.mem_erase_iff (hnd _)).mp h).1 (by simp)
      · exact hb (hclass r (List.mem_cons_self _ _) b h)
    · refine ih (fun b' => ?_) (fun r' hr' b' hb' => ?_) r hr b hmem
      · rw [updBins]
        by_cases hb0 : b' = floorBinOf r0.size
        · rw [if_pos hb0]; exact List.Nodup.erase _ (hnd _)
        · rw [if_neg hb0]; exact hnd b'
      · rcases mem_updBins.mp hb' with ⟨rfl, h⟩ | ⟨hbne, h⟩
        · exact hclass r' (List.mem_cons_of_mem _ hr') _ (List.mem_of_mem_erase h)
        · exact hclass r' (List.mem_cons_of_mem _ hr') _ h

/-- Preservation of the allocator invariant by `free`. -/
theorem inv_free {st : AllocState} (hinv : Inv st) (a : Allocation) :
    Inv (free st a).2 := by
  rw [free]
  cases hfn : findNode a.metadata st.chain with
  | none => exact hinv
  | some n =>
  simp only []
  by_cases hval : n.used = true ∧ n.offset = a.offset
  · rw [if_pos hval]
    cases hfo : freeAt a.metadata st.chain with
    | none => exact hinv
    | some fo =>
    simp only []
    obtain ⟨hnmem, hnidx⟩ := findNode_eq_some hfn
    have hrel := freeAt_released _ hfo
    have hperm := freeAt_idxs _ hfo
    have hpermnodup : (chainIdxs fo.chain ++ chainIdxs fo.released).Nodup :=
      (List.Perm.nodup_iff hperm).mpr hinv.chain_nodup
    rw [List.nodup_append] at hpermnodup
    obtain ⟨hchainnodup, hrelnodup, hdisj⟩ := hpermnodup
    obtain ⟨c, hcmem, hcidx, hcused, hcsize⟩ := freeAt_combined _ hfo
    have hrelchain : ∀ r ∈ fo.released, r.idx ∈ chainIdxs st.chain := by
      intro r hr
      exact List.mem_map_of_mem Node.idx (hrel r hr).1
    have hclass : ∀ r ∈ fo.released, ∀ b, r.idx ∈ st.bins b → b = floorBinOf r.size := by
      intro r hr b hb
      obtain ⟨hr1, hr2⟩ := hrel r hr
      obtain ⟨nr, hnr1, hnr2, hnr3, hnr4⟩ := hinv.bins_sound b r.idx hb
      obtain rfl : nr = r := idx_unique hinv.chain_nodup hnr1 hr1 (by rw [hnr2])
      rw [← hnr4]
    have hremoved := binsEraseNodes_removed hinv.bins_nodup hclass
    have hibins : ∀ b, a.metadata ∉ st.bins b := by
      intro b hcontra
      obtain ⟨nt, hnt1, hnt2, hnt3, -⟩ := hinv.bins_sound b a.metadata hcontra
      obtain rfl : nt = n := idx_unique hinv.chain_nodup hnt1 hnmem (by rw [hnt2, hnidx])
      rw [hval.1] at hnt3
      exact absurd hnt3 (by simp)
    have hiEB : ∀ b, a.metadata ∉ binsEraseNodes st.bins fo.released b := by
      intro b hcontra
      exact hibins b (binsEraseNodes_subset hcontra)
    have hEBsound : ∀ b i', i' ∈ binsEraseNodes st.bins fo.released b →
        ∃ m', m' ∈ fo.chain ∧ m'.idx = i' ∧ m'.used = false ∧ floorBinOf m'.size = b := by
      intro b i' hmem
      have hbin := binsEraseNodes_subset hmem
      obtain ⟨m', hm1, hm2, hm3, hm4⟩ := hinv.bins_sound b i' hbin
      have hine : i' ≠ a.metadata := by
        intro hc
        exact hibins b (hc ▸ hbin)
      have hinotrel : m'.idx ∉ chainIdxs fo.released := by
        intro hc
        rw [chainIdxs] at hc
        obtain ⟨r, hr1, hr2⟩ := List.mem_map.mp hc
        obtain rfl : r = m' :=
          idx_unique hinv.chain_nodup (hrel r hr1).1 hm1 hr2
        exact hremoved r hr1 b (by rw [hm2]; exact hmem)
      refine ⟨m', freeAt_mem_bwd _ hfo m' hm1 ?_ hinotrel, hm2, hm3, hm4⟩
      rw [hm2]; exact hine
    refine ⟨hinv.size_pos, hinv.maxAllocs_pos, ?_, ?_, ?_, ?_, ?_, ?_, ?_, ?_, ?_⟩
    · exact freeAt_partition _ hinv.partition hfo
    · have := freeAt_sumFree _ hfn hval.1 hfo
      have hacc := hinv.accounting
      dsimp only
      omega
    · exact hchainnodup
    · -- bins_sound
      dsimp only
      intro b' i' hmem
      rcases mem_updBins.mp hmem with ⟨hbeq, hmem2⟩ | ⟨hbne, hmem2⟩
      · rcases List.mem_cons.mp hmem2 with hieq | hmem3
        · subst hieq
          refine ⟨c, hcmem, hcidx, hcused, ?_⟩
          rw [hcsize, hbeq]
        · obtain ⟨m', hm1, hm2, hm3, hm4⟩ := hEBsound _ i' hmem3
          exact ⟨m', hm1, hm2, hm3, by rw [hm4, hbeq]⟩
      · exact hEBsound _ i' hmem2
    · -- bins_complete
      dsimp only
      intro x hx hxused
      rcases freeAt_mem_fwd _ hinv.chain_nodup hfo x hx with hxi | ⟨hxmem, hxne⟩
      · obtain rfl : x = c := idx_unique hchainnodup hx hcmem (by rw [hxi, hcidx])
        rw [mem_updBins]
        left
        refine ⟨by rw [hcsize], ?_⟩
        rw [hxi]
        exact List.mem_cons_self _ _
      · have hold := hinv.bins_complete x hxmem hxused
        have hxnotrel : x.idx ∉ chainIdxs fo.released :=
          hdisj (List.mem_map_of_mem Node.idx hx)
        have hEB := binsEraseNodes_mem hold hxnotrel
        rw [mem_updBins]
        by_cases hfb : floorBinOf x.size = floorBinOf fo.newSize
        · left
          exact ⟨hfb, List.mem_cons_of_mem _ (hfb ▸ hEB)⟩
        · right
          exact ⟨hfb, hEB⟩
    · -- bins_nodup
      dsimp only
      intro b'
      rw [updBins]
      by_cases hb' : b' = floorBinOf fo.newSize
      · rw [if_pos hb']
        exact List.nodup_cons.mpr ⟨hiEB _, binsEraseNodes_nodup hinv.bins_nodup _⟩
      · rw [if_neg hb']
        exact binsEraseNodes_nodup hinv.bins_nodup _
    · -- bins_disjoint
      dsimp only
      intro b1 b2 i' h1 h2
      rcases mem_updBins.mp h1 with ⟨hbeq1, h1a⟩ | ⟨hbne1, h1a⟩
      · rcases List.mem_cons.mp h1a with hieq1 | h1b
        · rcases mem_updBins.mp h2 with ⟨hbeq2, h2a⟩ | ⟨hbne2, h2a⟩
          · rw [hbeq1, hbeq2]
          · exact absurd (hieq1 ▸ h2a) (hiEB _)
        · rcases mem_updBins.mp h2 with ⟨hbeq2, h2a⟩ | ⟨hbne2, h2a⟩
          · rcases List.mem_cons.mp h2a with hieq2 | h2b
            · exact absurd (hieq2 ▸ h1b) (hiEB _)
            · rw [hbeq1, hbeq2]
          · exact hbeq1.trans (hinv.bins_disjoint _ _ i' (binsEraseNodes_subset h1b)
              (binsEraseNodes_subset h2a))
      · rcases mem_updBins.mp h2 with ⟨hbeq2, h2a⟩ | ⟨hbne2, h2a⟩
        · rcases List.mem_cons.mp h2a with hieq2 | h2b
          · exact absurd (hieq2 ▸ h1a) (hiEB _)
          · exact (hinv.bins_disjoint _ _ i' (binsEraseNodes_subset h1a)
              (binsEraseNodes_subset h2b)).trans hbeq2.symm
        · exact hinv.bins_disjoint _ _ i' (binsEraseNodes_subset h1a)
            (binsEraseNodes_subset h2a)
    · -- slots_nodup
      dsimp only
      rw [List.nodup_append]
      refine ⟨hrelnodup, hinv.slots_nodup, ?_⟩
      intro x hx1 hx2
      rw [chainIdxs] at hx1
      obtain ⟨r, hr1, hr2⟩ := List.mem_map.mp hx1
      exact hinv.slots_fresh x hx2 (hr2 ▸ hrelchain r hr1)
    · -- slots_fresh
      dsimp only
      intro x hx
      rcases List.mem_append.mp hx with hx | hx
      · exact fun hc => hdisj hc hx
      · intro hc
        have : x ∈ chainIdxs st.chain := (List.Perm.mem_iff hperm).mp
          (List.mem_append.mpr (Or.inl hc))
        exact hinv.slots_fresh x hx this
  · rw [if_neg hval]
    exact hinv

/-! ### The invariant holds in every reachable state -/

theorem inv_init {size maxAllocs : Nat} (hs : 1 ≤ size) (hm : 1 ≤ maxAllocs) :
    Inv (initState size maxAllocs) := by
  unfold initState
  refine ⟨hs, hm, ?_, ?_, ?_, ?_, ?_, ?_, ?_, ?_, ?_⟩
  · show isChainFrom size 0 [⟨0, 0, size, false⟩]
    refine ⟨rfl, hs, ?_⟩
    show 0 + size = size
    omega
  · show sumFree [⟨0, 0, size, false⟩] = size
    simp [sumFree]
  · show (chainIdxs [⟨0, 0, size, false⟩]).Nodup
    simp [chainIdxs]
  · show ∀ b i, i ∈ updBins (fun _ => []) (floorBinOf size) [0] b → ∃ n,
      n ∈ [(⟨0, 0, size, false⟩ : Node)] ∧ n.idx = i ∧ n.used = false ∧ floorBinOf n.size = b
    intro b i hib
    rcases mem_updBins.mp hib with ⟨rfl, hi⟩ | ⟨hb, hi⟩
    · obtain rfl : i = 0 := by simpa using hi
      exact ⟨⟨0, 0, size, false⟩, List.mem_cons_self _ _, rfl, rfl, rfl⟩
    · simp at hi
  · show ∀ x, x ∈ [(⟨0, 0, size, false⟩ : Node)] → x.used = false →
      x.idx ∈ updBins (fun _ => []) (floorBinOf size) [0] (floorBinOf x.size)
    intro x hx hxused
    obtain rfl : x = ⟨0, 0, size, false⟩ := by simpa using hx
    rw [mem_updBins]
    left
    exact ⟨rfl, List.mem_cons_self _ _⟩
  · show ∀ b, (updBins (fun _ => []) (floorBinOf size) [0] b).Nodup
    intro b
    rw [updBins]
    by_cases hb : b = floorBinOf size
    · rw [if_pos hb]; simp
    · rw [if_neg hb]; simp
  · show ∀ b b' i, i ∈ updBins (fun _ => []) (floorBinOf size) [0] b →
      i ∈ updBins (fun _ => []) (floorBinOf size) [0] b' → b = b'
    intro b b' i h1 h2
    rcases mem_updBins.mp h1 with ⟨rfl, _⟩ | ⟨_, h⟩
    · rcases mem_updBins.mp h2 with ⟨rfl, _⟩ | ⟨_, h'⟩
      · rfl
      · simp at h'
    · simp at h
  · show (List.range' 1 (maxAllocs - 1)).Nodup
    exact List.nodup_range' 1 (maxAllocs - 1)
  · show ∀ j, j ∈ List.range' 1 (maxAllocs - 1) → j ∉ chainIdxs [⟨0, 0, size, false⟩]
    intro j hj
    have h1 : 1 ≤ j := (List.mem_range'_1.mp hj).1
    simp [chainIdxs]
    omega

theorem inv_reset {st : AllocState} (hinv : Inv st) : Inv (resetA st) :=
  inv_init hinv.size_pos hinv.maxAllocs_pos

/-- Every reachable allocator state satisfies the invariant. -/
theorem inv_of_reachable {st : AllocState} (h : Reachable st) : Inv st := by
  induction h with
  | construct size maxAllocs hs hm => exact inv_init hs hm
  | stepAlloc s _ ih => exact inv_allocate ih s
  | stepFree a _ ih => exact inv_free ih a
  | stepReset _ ih => exact inv_reset ih

/-! ### Failure cases leave the state unchanged; double frees are rejected -/

theorem allocate_fail_state {st : AllocState} {s : Nat}
    (h : ∀ a, (allocate st s).1 ≠ .ok a) : (allocate st s).2 = st := by
  rw [allocate] at h ⊢
  by_cases hs0 : s = 0
  · rw [if_pos hs0]
  rw [if_neg hs0] at h ⊢
  cases hcb : ceilBinOf s with
  | none => rfl
  | some cb =>
  rw [hcb] at h
  simp only [] at h ⊢
  cases hb : findBinFrom (fun b => !(st.bins b).isEmpty) cb (NUM_LEAF_BINS - cb) with
  | none => rfl
  | some b =>
  rw [hb] at h
  simp only [] at h ⊢
  cases hi : (st.bins b).head? with
  | none => rfl
  | some i =>
  rw [hi] at h
  simp only [] at h ⊢
  cases hn : findNode i st.chain with
  | none => rfl
  | some n =>
  rw [hn] at h
  simp only [] at h ⊢
  by_cases hsplit : s < n.size
  · rw [if_pos hsplit] at h ⊢
    cases hslots : st.freeSlots with
    | nil => rfl
    | cons j slots =>
      rw [hslots] at h
      exact absurd rfl (h ⟨n.offset, i⟩)
  · rw [if_neg hsplit] at h
    exact absurd rfl (h ⟨n.offset, i⟩)

theorem allocate_outOfSpace_state {st : AllocState} {s : Nat}
    (h : (allocate st s).1 = .outOfSpace) : (allocate st s).2 = st := by
  refine allocate_fail_state (fun a hcontra => ?_)
  rw [h] at hcontra
  exact AllocResult.noConfusion hcontra

theorem free_error_state {st : AllocState} {a : Allocation} {e : FreeError}
    (h : (free st a).1 = .error e) : (free st a).2 = st := by
  rw [free] at h ⊢
  cases hfn : findNode a.metadata st.chain with
  | none => rfl
  | some n =>
  rw [hfn] at h
  simp only [] at h ⊢
  by_cases hval : n.used = true ∧ n.offset = a.offset
  · rw [if_pos hval] at h ⊢
    cases hfo : freeAt a.metadata st.chain with
    | none => rfl
    | some fo =>
      rw [hfo] at h
      exact Except.noConfusion h
  · rw [if_neg hval]

/-- After a successful `free`, the handle's node exists in the chain with the
same arena index but `used = false`; hence a second `free` and an
`allocationSize` query on the same handle are rejected as `InvalidHandle`,
with the state unchanged. -/
theorem free_free_invalidHandle {st : AllocState} {a : Allocation}
    (hinv : Inv st) (h : (free st a).1 = .ok ()) :
    free ((free st a).2) a = (.error .invalidHandle, (free st a).2) ∧
      allocationSize ((free st a).2) a = .error .invalidHandle := by
  rw [free] at h
  cases hfn : findNode a.metadata st.chain with
  | none => rw [hfn] at h; exact Except.noConfusion h
  | some n =>
  rw [hfn] at h
  simp only [] at h
  by_cases hval : n.used = true ∧ n.offset = a.offset
  · rw [if_pos hval] at h
    cases hfo : freeAt a.metadata st.chain with
    | none =>
      exact absurd hfn (by rw [freeAt_eq_none _ hfo]; exact fun hc => Option.noConfusion hc)
    | some fo =>
      have hst2 : (free st a).2 =
          { st with
            freeStorage := st.freeStorage + n.size
            chain := fo.chain
            bins :=
              updBins (binsEraseNodes st.bins fo.released) (floorBinOf fo.newSize)
                (a.metadata :: binsEraseNodes st.bins fo.released (floorBinOf fo.newSize))
            freeSlots := chainIdxs fo.released ++ st.freeSlots } := by
        rw [free, hfn]
        simp only []
        rw [if_pos hval, hfo]
      have hperm := freeAt_idxs _ hfo
      have hchainnodup : (chainIdxs fo.chain).Nodup := by
        have := (List.Perm.nodup_iff hperm).mpr hinv.chain_nodup
        rw [List.nodup_append] at this
        exact this.1
      obtain ⟨c, hcmem, hcidx, hcused, hcsize⟩ := freeAt_combined _ hfo
      have hfind2 : findNode a.metadata fo.chain = some c := by
        rw [← hcidx]
        exact findNode_of_mem hchainnodup hcmem
      have hval2 : ¬(c.used = true ∧ c.offset = a.offset) := by
        intro hc
        rw [hcused] at hc
        exact Bool.noConfusion hc.1
      constructor
      · rw [hst2, free]
        simp only [hfind2]
        rw [if_neg hval2]
      · rw [hst2, allocationSize]
        simp only [hfind2]
        rw [if_neg hval2]
  · rw [if_neg hval] at h
    exact Except.noConfusion h


/-! ### Live handles: effect of allocate/free on the handles the harness keeps -/

/-- A handle is live when a currently-used chain node carries its arena index
and offset. These are exactly the handles `free` accepts. -/
def IsLive (A : AllocState) (a : Allocation) : Prop :=
  ∃ n, n ∈ A.chain ∧ n.idx = a.metadata ∧ n.used = true ∧ n.offset = a.offset

theorem allocate_ok_spec {st : AllocState} {s : Nat} {a : Allocation}
    (hinv : Inv st) (h : (allocate st s).1 = .ok a) :
    IsLive (allocate st s).2 a ∧
      ∀ h', IsLive st h' → IsLive (allocate st s).2 h' ∧ h'.metadata ≠ a.metadata := by
  rw [allocate] at h ⊢
  by_cases hs0 : s = 0
  · rw [if_pos hs0] at h; exact absurd h (by simp)
  rw [if_neg hs0] at h ⊢
  cases hcb : ceilBinOf s with
  | none => rw [hcb] at h; exact absurd h (by simp)
  | some cb =>
  rw [hcb] at h
  simp only [] at h ⊢
  cases hb : findBinFrom (fun b => !(st.bins b).isEmpty) cb (NUM_LEAF_BINS - cb) with
  | none => rw [hb] at h; exact absurd h (by simp)
  | some b =>
  rw [hb] at h
  simp only [] at h ⊢
  cases hi : (st.bins b).head? with
  | none => rw [hi] at h; exact absurd h (by simp)
  | some i =>
  rw [hi] at h
  simp only [] at h ⊢
  cases hn : findNode i st.chain with
  | none => rw [hn] at h; exact absurd h (by simp)
  | some n =>
  rw [hn] at h
  simp only [] at h ⊢
  have hii : i ∈ st.bins b := by
    rw [bins_b_eq_cons hi]
    exact List.mem_cons_self i _
  obtain ⟨n', hn'mem, hn'idx, hn'used, hn'floor⟩ := hinv.bins_sound b i hii
  obtain ⟨hnmem, hnidx⟩ := findNode_eq_some hn
  obtain rfl : n = n' := idx_unique hinv.chain_nodup hnmem hn'mem (by rw [hnidx, hn'idx])
  have hother : ∀ h', IsLive st h' → h'.metadata ≠ i := by
    intro h' ⟨m, hm1, hm2, hm3, hm4⟩ hc
    obtain rfl : m = n := idx_unique hinv.chain_nodup hm1 hnmem (by rw [hm2, hc, hnidx])
    rw [hn'used] at hm3
    exact Bool.noConfusion hm3
  by_cases hsplit : s < n.size
  · rw [if_pos hsplit] at h ⊢
    cases hslots : st.freeSlots with
    | nil => rw [hslots] at h; exact absurd h (by simp)
    | cons j slots =>
    rw [hslots] at h
    simp only [AllocResult.ok.injEq] at h
    subst h
    constructor
    · refine ⟨{ n with size := s, used := true }, (allocAt_mem_new hn).1, ?_, rfl, rfl⟩
      show n.idx = i
      exact hnidx
    · intro h' hlive
      obtain ⟨m, hm1, hm2, hm3, hm4⟩ := hlive
      have hmne : m.idx ≠ i := by
        rw [hm2]; exact hother h' ⟨m, hm1, hm2, hm3, hm4⟩
      exact ⟨⟨m, allocAt_mem_of_ne hm1 hmne, hm2, hm3, hm4⟩,
        hother h' ⟨m, hm1, hm2, hm3, hm4⟩⟩
  · rw [if_neg hsplit] at h ⊢
    simp only [AllocResult.ok.injEq] at h
    subst h
    constructor
    · refine ⟨{ n with size := s, used := true }, (allocAt_mem_new hn).1, ?_, rfl, rfl⟩
      show n.idx = i
      exact hnidx
    · intro h' hlive
      obtain ⟨m, hm1, hm2, hm3, hm4⟩ := hlive
      have hmne : m.idx ≠ i := by
        rw [hm2]; exact hother h' ⟨m, hm1, hm2, hm3, hm4⟩
      exact ⟨⟨m, allocAt_mem_of_ne hm1 hmne, hm2, hm3, hm4⟩,
        hother h' ⟨m, hm1, hm2, hm3, hm4⟩⟩

theorem free_ok_of_live {st : AllocState} {a : Allocation}
    (hinv : Inv st) (hlive : IsLive st a) : (free st a).1 = .ok () := by
  obtain ⟨n, hn1, hn2, hn3, hn4⟩ := hlive
  have hfind : findNode a.metadata st.chain = some n := by
    rw [← hn2]
    exact findNode_of_mem hinv.chain_nodup hn1
  rw [free]
  simp only [hfind]
  rw [if_pos ⟨hn3, hn4⟩]
  cases hfo : freeAt a.metadata st.chain with
  | none =>
    exact absurd hfind (by rw [freeAt_eq_none _ hfo]; exact fun hc => Option.noConfusion hc)
  | some fo => rfl

theorem free_ok_spec {st : AllocState} {a : Allocation}
    (hinv : Inv st) (h : (free st a).1 = .ok ()) :
    ∀ h', IsLive st h' → h'.metadata ≠ a.metadata → IsLive (free st a).2 h' := by
  rw [free] at h ⊢
  cases hfn : findNode a.metadata st.chain with
  | none => rw [hfn] at h; exact Except.noConfusion h
  | some n =>
  rw [hfn] at h
  simp only [] at h ⊢
  by_cases hval : n.used = true ∧ n.offset = a.offset
  · rw [if_pos hval] at h ⊢
    cases hfo : freeAt a.metadata st.chain with
    | none =>
      exact absurd hfn (by rw [freeAt_eq_none _ hfo]; exact fun hc => Option.noConfusion hc)
    | some fo =>
    simp only []
    intro h' ⟨m, hm1, hm2, hm3, hm4⟩ hmeta
    have hmne : m.idx ≠ a.metadata := by rw [hm2]; exact hmeta
    have hmnotrel : m.idx ∉ chainIdxs fo.released := by
      intro hc
      rw [chainIdxs] at hc
      obtain ⟨r, hr1, hr2⟩ := List.mem_map.mp hc
      obtain ⟨hrc, hrf⟩ := freeAt_released _ hfo r hr1
      obtain rfl : r = m := idx_unique hinv.chain_nodup hrc hm1 hr2
      rw [hm3] at hrf
      exact Bool.noConfusion hrf
    exact ⟨m, freeAt_mem_bwd _ hfo m hm1 hmne hmnotrel, hm2, hm3, hm4⟩
  · rw [if_neg hval] at h
    exact Except.noConfusion h

/-! ## The explorer harness (translated from `ShowAllocatorExplorer` and
`drawAllocation` in `src/OffsetAllocatorExplorer.cpp`)

The harness keeps a global `allocator` (optional) and an `allocations`
vector.  The Allocate button appends the returned handle when
`offset != NO_SPACE`; Clear resets the allocator and clears the vector;
Destroy drops the allocator and clears the vector; clicking a used block
looks up the first vector entry with the hovered offset, erases every entry
equal to it and calls `allocator->free` on it. -/

structure HState where
  alloc : Option AllocState
  allocations : List Allocation

inductive HStep : HState → HState → Prop
  | newAllocator (size maxAllocs : Nat) (l : List Allocation) :
      1 ≤ size → 1 ≤ maxAllocs →
      HStep ⟨none, l⟩ ⟨some (initState size maxAllocs), l⟩
  | allocClick (s : Nat) (A : AllocState) (l : List Allocation) :
      HStep ⟨some A, l⟩ ⟨some (allocate A s).2,
        match (allocate A s).1 with
        | .ok a => l ++ [a]
        | _ => l⟩
  | clearClick (A : AllocState) (l : List Allocation) :
      HStep ⟨some A, l⟩ ⟨some (resetA A), []⟩
  | destroyClick (A : AllocState) (l : List Allocation) :
      HStep ⟨some A, l⟩ ⟨none, []⟩
  | freeClick (o : Nat) (A : AllocState) (l : List Allocation) (a : Allocation) :
      l.find? (fun x => x.offset == o) = some a →
      HStep ⟨some A, l⟩ ⟨some (free A a).2, l.filter (fun x => x != a)⟩

inductive HReach : HState → Prop
  | init : HReach ⟨none, []⟩
  | step {h h' : HState} : HReach h → HStep h h' → HReach h'

/-- Invariant of the harness: a live allocator state is reachable, every
tracked handle is live, handles have pairwise distinct metadata, and the
vector is empty whenever no allocator exists. -/
structure HInv (hs : HState) : Prop where
  reach : ∀ A, hs.alloc = some A → Reachable A
  live : ∀ A, hs.alloc = some A → ∀ a ∈ hs.allocations, IsLive A a
  meta_nodup : (hs.allocations.map Allocation.metadata).Nodup
  none_empty : hs.alloc = none → hs.allocations = []

theorem meta_unique {l : List Allocation}
    (h : (l.map Allocation.metadata).Nodup) {a b : Allocation}
    (ha : a ∈ l) (hb : b ∈ l) (hab : a.metadata = b.metadata) : a = b := by
  induction l with
  | nil => simp at ha
  | cons x rest ih =>
    rw [List.map_cons, List.nodup_cons] at h
    by_cases hax : a = x
    · by_cases hbx : b = x
      · rw [hax, hbx]
      · have hbr : b ∈ rest := by
          rcases List.mem_cons.mp hb with h' | h'
          · exact absurd h' hbx
          · exact h'
        exfalso
        apply h.1
        rw [← hax, hab]
        exact List.mem_map_of_mem Allocation.metadata hbr
    · have har : a ∈ rest := by
        rcases List.mem_cons.mp ha with h' | h'
        · exact absurd h' hax
        · exact h'
      by_cases hbx : b = x
      · exfalso
        apply h.1
        rw [← hbx, ← hab]
        exact List.mem_map_of_mem Allocation.metadata har
      · have hbr : b ∈ rest := by
          rcases List.mem_cons.mp hb with h' | h'
          · exact absurd h' hbx
          · exact h'
        exact ih h.2 har hbr

theorem hinv_of_hreach {hs : HState} (h : HReach hs) : HInv hs := by
  induction h with
  | init =>
    exact ⟨fun A hA => Option.noConfusion hA, fun A hA => Option.noConfusion hA,
      List.nodup_nil, fun _ => rfl⟩
  | step hr hstep ih =>
    cases hstep with
    | newAllocator size maxAllocs l hsz hm =>
      have hempty : l = [] := ih.none_empty rfl
      subst hempty
      exact ⟨fun A hA => by
          obtain rfl : initState size maxAllocs = A := by simpa using hA
          exact Reachable.construct size maxAllocs hsz hm,
        fun A hA a ha => by simp at ha,
        List.nodup_nil, fun hc => rfl⟩
    | allocClick s A l =>
      have hreachA : Reachable A := ih.reach A rfl
      have hinvA : Inv A := inv_of_reachable hreachA
      have hreach' : Reachable (allocate A s).2 := Reachable.stepAlloc s hreachA
      cases hres : (allocate A s).1 with
      | ok a =>
        obtain ⟨hlive_a, hothers⟩ := allocate_ok_spec hinvA hres
        refine ⟨fun A' hA' => by obtain rfl : (allocate A s).2 = A' := by simpa using hA'
                                 exact hreach',
          fun A' hA' x hx => ?_, ?_, fun hc => Option.noConfusion hc⟩
        · obtain rfl : (allocate A s).2 = A' := by simpa using hA'
          simp only [hres] at hx
          rcases List.mem_append.mp hx with hx | hx
          · exact (hothers x (ih.live A rfl x hx)).1
          · obtain rfl : x = a := by simpa using hx
            exact hlive_a
        · simp only [hres]
          rw [List.map_append, List.nodup_append]
          refine ⟨ih.meta_nodup, by simp, ?_⟩
          intro y hy1 hy2
          rw [List.map] at hy2
          obtain ⟨x, hx1, hx2⟩ := List.mem_map.mp hy1
          obtain rfl : y = a.metadata := by simpa using hy2
          exact (hothers x (ih.live A rfl x hx1)).2 hx2
      | invalidRequest =>
        have hst : (allocate A s).2 = A :=
          allocate_fail_state (fun a hc => by rw [hres] at hc; exact AllocResult.noConfusion hc)
        refine ⟨fun A' hA' => by obtain rfl : (allocate A s).2 = A' := by simpa using hA'
                                 exact hreach',
          fun A' hA' x hx => ?_, ?_, fun hc => Option.noConfusion hc⟩
        · obtain rfl : (allocate A s).2 = A' := by simpa using hA'
          simp only [hres] at hx
          rw [hst]
          exact ih.live A rfl x hx
        · simp only [hres]
          exact ih.meta_nodup
      | outOfSpace =>
        have hst : (allocate A s).2 = A :=
          allocate_fail_state (fun a hc => by rw [hres] at hc; exact AllocResult.noConfusion hc)
        refine ⟨fun A' hA' => by obtain rfl : (allocate A s).2 = A' := by simpa using hA'
                                 exact hreach',
          fun A' hA' x hx => ?_, ?_, fun hc => Option.noConfusion hc⟩
        · obtain rfl : (allocate A s).2 = A' := by simpa using hA'
          simp only [hres] at hx
          rw [hst]
          exact ih.live A rfl x hx
        · simp only [hres]
          exact ih.meta_nodup
      | capacityExceeded =>
        have hst : (allocate A s).2 = A :=
          allocate_fail_state (fun a hc => by rw [hres] at hc; exact AllocResult.noConfusion hc)
        refine ⟨fun A' hA' => by obtain rfl : (allocate A s).2 = A' := by simpa using hA'
                                 exact hreach',
          fun A' hA' x hx => ?_, ?_, fun hc => Option.noConfusion hc⟩
        · obtain rfl : (allocate A s).2 = A' := by simpa using hA'
          simp only [hres] at hx
          rw [hst]
          exact ih.live A rfl x hx
        · simp only [hres]
          exact ih.meta_nodup
    | clearClick A l =>
      exact ⟨fun A' hA' => by obtain rfl : resetA A = A' := by simpa using hA'
                              exact Reachable.stepReset (ih.reach A rfl),
        fun A' hA' a ha => by simp at ha, List.nodup_nil, fun _ => rfl⟩
    | destroyClick A l =>
      exact ⟨fun A' hA' => Option.noConfusion hA', fun A' hA' => Option.noConfusion hA',
        List.nodup_nil, fun _ => rfl⟩
    | freeClick o A l a hfind =>
      have hamem : a ∈ l := List.mem_of_find?_eq_some hfind
      have hreachA : Reachable A := ih.reach A rfl
      have hinvA : Inv A := inv_of_reachable hreachA
      have halive : IsLive A a := ih.live A rfl a hamem
      have hok : (free A a).1 = .ok () := free_ok_of_live hinvA halive
      refine ⟨fun A' hA' => by obtain rfl : (free A a).2 = A' := by simpa using hA'
                               exact Reachable.stepFree a hreachA,
        fun A' hA' x hx => ?_, ?_, fun hc => Option.noConfusion hc⟩
      · obtain rfl : (free A a).2 = A' := by simpa using hA'
        have hx' : x ∈ l := List.mem_of_mem_filter hx
        have hxa : x ≠ a := by
          have := List.of_mem_filter hx
          simpa using this
        have hxmeta : x.metadata ≠ a.metadata := by
          intro hc
          exact hxa (meta_unique ih.meta_nodup hx' hamem hc)
        exact free_ok_spec hinvA hok x (ih.live A rfl x hx') hxmeta
      · refine List.Nodup.sublist ?_ ih.meta_nodup
        exact List.Sublist.map Allocation.metadata (List.filter_sublist l)

/-! ## Edge-triggered key handling (translated from `IsPressed` in
`src/OffsetAllocatorExplorer.cpp`)

`IsPressed(key)` polls the key state; when the key is down and ImGui does not
capture the keyboard it reports a press only if the key was not in
`keyDownLastFrame`, inserting it; otherwise it erases the key and reports
false.  `down` models `GetKeyState(key) & 0x80`, `capture` models
`ImGui::GetIO().WantCaptureKeyboard`, and the set is modelled as a list. -/

def IsPressed (key : Nat) (down capture : Bool) (s : List Nat) : Bool × List Nat :=
  if down && !capture then
    (!(s.contains key), if s.contains key then s else key :: s)
  else
    (false, s.filter (fun k => k != key))

/-! ## The drawAllocation pixel loop (translated from `drawAllocation` in
`src/OffsetAllocatorExplorer.cpp`)

With `bytesPerBlock = 1`, `pixelsPerBlock = 16` and `pixelsPerByte = 16`, one
iteration computes `pixels = 16 * offset` (32-bit arithmetic),
`col = pixels % windowWidth`, `bytesRoomLeft = (windowEnd - start.x) / 16 =
(windowWidth - col) / 16` and `bytesToDraw = min bytes bytesRoomLeft`, then
advances `offset` and decreases `bytes` by `bytesToDraw`.  The float
computations are integer-valued throughout and are modelled exactly;
`windowWidth = 16 * W` per the claim's hypothesis. -/

def U32 : Nat := 2 ^ 32

def bytesToDrawStep (W offset bytes : Nat) : Nat :=
  let pixels := (16 * offset) % U32
  let col := pixels % (16 * W)
  let bytesRoomLeft := (16 * W - col) / 16
  min bytes bytesRoomLeft

def drawStep (W offset bytes : Nat) : Nat × Nat :=
  (offset + bytesToDrawStep W offset bytes, bytes - bytesToDrawStep W offset bytes)

/-- The loop, run with the given iteration budget; returns the remaining
`bytes`. -/
def drawLoop (W : Nat) : Nat → Nat → Nat → Nat
  | 0, _, bytes => bytes
  | fuel + 1, offset, bytes =>
    if bytes = 0 then 0
    else drawLoop W fuel (drawStep W offset bytes).1 (drawStep W offset bytes).2

theorem bytesToDrawStep_pos {W offset bytes : Nat} (hW : 1 ≤ W) (hb : 1 ≤ bytes) :
    1 ≤ bytesToDrawStep W offset bytes := by
  unfold bytesToDrawStep
  have h16 : (16 : Nat) ∣ (16 * offset) % U32 :=
    (Nat.dvd_mod_iff (by unfold U32; norm_num)).mpr (Dvd.intro offset rfl)
  have hcol : (16 : Nat) ∣ ((16 * offset) % U32) % (16 * W) :=
    (Nat.dvd_mod_iff (Dvd.intro W rfl)).mpr h16
  have hlt : ((16 * offset) % U32) % (16 * W) < 16 * W :=
    Nat.mod_lt _ (by omega)
  obtain ⟨c, hc⟩ := hcol
  have hcW : c < W := by omega
  have hroom : 1 ≤ (16 * W - ((16 * offset) % U32) % (16 * W)) / 16 := by
    rw [hc]
    have : 16 * W - 16 * c = 16 * (W - c) := by omega
    rw [this, Nat.mul_div_cancel_left _ (by omega)]
    omega
  simp only [ge_iff_le, le_min_iff]
  exact ⟨hb, hroom⟩

theorem drawLoop_zero {W : Nat} (hW : 1 ≤ W) :
    ∀ fuel offset bytes, bytes ≤ fuel → drawLoop W fuel offset bytes = 0 := by
  intro fuel
  induction fuel with
  | zero => intro offset bytes hb; interval_cases bytes; rfl
  | succ n ih =>
    intro offset bytes hb
    rw [drawLoop]
    by_cases hb0 : bytes = 0
    · rw [if_pos hb0]
    · rw [if_neg hb0]
      refine ih _ _ ?_
      have := @bytesToDrawStep_pos W offset bytes hW (by omega)
      show bytes - bytesToDrawStep W offset bytes ≤ n
      omega


/-! ## The claims -/

/-- Claim C1: in every reachable allocator state (any sequence of
construct/allocate/free/reset), the sum of `size` over all nodes with
`used = false` equals the running free-byte counter, which is the value
returned as `storageReport().totalFreeSpace`. -/
theorem claim_C1 (st : AllocState) (h : Reachable st) :
    sumFree st.chain = st.freeStorage ∧
      (storageReport st).totalFreeSpace = st.freeStorage :=
  ⟨(inv_of_reachable h).accounting, rfl⟩

theorem claim_C1_witness :
    sumFree (initState 1024 128).chain = (initState 1024 128).freeStorage ∧
      (storageReport (initState 1024 128)).totalFreeSpace =
        (initState 1024 128).freeStorage :=
  claim_C1 (initState 1024 128)
    (Reachable.construct 1024 128 (by decide) (by decide))

theorem pairwise_elim {r : Node → Node → Prop} {l : List Node} (h : l.Pairwise r) :
    ∀ n ∈ l, ∀ m ∈ l, n ≠ m → r n m ∨ r m n := by
  induction l with
  | nil => intro n hn; simp at hn
  | cons a t ih =>
    rw [List.pairwise_cons] at h
    intro n hn m hm hnm
    rcases List.mem_cons.mp hn with hn1 | hn2
    · subst hn1
      rcases List.mem_cons.mp hm with hm1 | hm2
      · subst hm1
        exact absurd rfl hnm
      · exact Or.inl (h.1 m hm2)
    · rcases List.mem_cons.mp hm with hm1 | hm2
      · subst hm1
        exact Or.inr (h.1 n hn2)
      · exact ih h.2 n hn2 m hm2 hnm

theorem isChainFrom_sorted {total pos : Nat} {l : List Node}
    (h : isChainFrom total pos l) :
    l.Pairwise (fun a b => a.offset < b.offset) := by
  induction l generalizing pos with
  | nil => exact List.Pairwise.nil
  | cons a rest ih =>
    obtain ⟨h1, h2, h3⟩ := h
    refine List.Pairwise.cons (fun b hb => ?_) (ih h3)
    have := (isChainFrom_bounds h3) b hb
    omega

/-- Claim C2: in every reachable allocator state, the ranges of distinct
currently-used allocations are disjoint; every offset in `[0, size)` is
covered by exactly one node of the neighbor chain; and the chain, traversed
from either end, is monotonic in `offset`. -/
theorem claim_C2 (st : AllocState) (h : Reachable st) :
    (∀ n m, n ∈ st.chain → m ∈ st.chain → n.used = true → m.used = true → n ≠ m →
      n.offset + n.size ≤ m.offset ∨ m.offset + m.size ≤ n.offset) ∧
    (∀ x, x < st.totalSize →
      ∃! n, n ∈ st.chain ∧ n.offset ≤ x ∧ x < n.offset + n.size) ∧
    st.chain.Pairwise (fun a b => a.offset < b.offset) ∧
    st.chain.reverse.Pairwise (fun a b => b.offset < a.offset) := by
  have hp := (inv_of_reachable h).partition
  have hpw := isChainFrom_pairwise hp
  refine ⟨?_, ?_, isChainFrom_sorted hp, ?_⟩
  · intro n m hn hm _ _ hnm
    exact pairwise_elim hpw n hn m hm hnm
  · intro x hx
    obtain ⟨n, hn1, hn2, hn3⟩ := isChainFrom_cover hp x (Nat.zero_le x) hx
    refine ⟨n, ⟨hn1, hn2, hn3⟩, ?_⟩
    intro m ⟨hm1, hm2, hm3⟩
    by_contra hmn
    rcases pairwise_elim hpw m hm1 n hn1 hmn with hd | hd
    · omega
    · omega
  · rw [List.pairwise_reverse]
    exact isChainFrom_sorted hp

theorem claim_C2_witness :
    (∀ n m, n ∈ (initState 1024 128).chain → m ∈ (initState 1024 128).chain →
      n.used = true → m.used = true → n ≠ m →
      n.offset + n.size ≤ m.offset ∨ m.offset + m.size ≤ n.offset) ∧
    (∀ x, x < (initState 1024 128).totalSize →
      ∃! n, n ∈ (initState 1024 128).chain ∧ n.offset ≤ x ∧ x < n.offset + n.size) ∧
    (initState 1024 128).chain.Pairwise (fun a b => a.offset < b.offset) ∧
    (initState 1024 128).chain.reverse.Pairwise (fun a b => b.offset < a.offset) :=
  claim_C2 (initState 1024 128)
    (Reachable.construct 1024 128 (by decide) (by decide))

def c3_st0 : AllocState := initState 1024 128

def c3_r1 : AllocResult × AllocState := allocate c3_st0 100

def c3_r2 : AllocResult × AllocState := allocate c3_r1.2 200

def c3_r3 : Except FreeError Unit × AllocState := free c3_r2.2 ⟨0, 0⟩

def c3_r4 : Except FreeError Unit × AllocState := free c3_r3.2 ⟨100, 1⟩

def c3_r5 : AllocResult × AllocState := allocate c3_r4.2 300

set_option maxRecDepth 100000 in
/-- Claim C3: on a fresh `Allocator(1024, 128)`, `a = allocate(100)` returns
offset 0, `b = allocate(200)` returns offset 100; after `free(a); free(b)`
the whole space is one free root region (`totalFreeSpace = 1024`) and a
subsequent `allocate(300)` succeeds at offset 0. -/
theorem claim_C3 :
    c3_r1.1 = .ok ⟨0, 0⟩ ∧ c3_r2.1 = .ok ⟨100, 1⟩ ∧
      c3_r3.1 = .ok () ∧ c3_r4.1 = .ok () ∧
      (storageReport c3_r4.2).totalFreeSpace = 1024 ∧
      c3_r4.2.chain = [⟨1, 0, 1024, false⟩] ∧
      c3_r5.1 = .ok ⟨0, 1⟩ := by
  refine ⟨?_, ?_, ?_, ?_, ?_, ?_, ?_⟩ <;> rfl

/-- Claim C4: when `allocate` cannot find a free region large enough it fails
with `OutOfSpace`, returning the reserved sentinel in the result's offset
field, and the allocator state is unchanged; concretely, on
`Allocator(100, 8)` the call `allocate(150)` fails and `totalFreeSpace`
stays 100. -/
theorem claim_C4 :
    (∀ st s, (allocate st s).1 = .outOfSpace → (allocate st s).2 = st) ∧
    (∀ st s, (allocate st s).1 = .outOfSpace →
      ((allocate st s).1).retOffset = NO_SPACE) ∧
    (allocate (initState 100 8) 150).1 = .outOfSpace ∧
    (allocate (initState 100 8) 150).2 = initState 100 8 ∧
    (storageReport (allocate (initState 100 8) 150).2).totalFreeSpace = 100 := by
  refine ⟨?_, ?_, ?_, ?_, ?_⟩
  · intro st s hout
    exact allocate_outOfSpace_state hout
  · intro st s hout
    rw [hout]
    rfl
  · rfl
  · rfl
  · rfl

theorem claim_C4_witness :
    (allocate (initState 100 8) 150).2 = initState 100 8 :=
  claim_C4.1 (initState 100 8) 150 (by rfl)

/-- Claim C5: after `free(a)` succeeds, a second `free(a)` fails with
`InvalidHandle` and leaves the state (including the free-byte counter)
unchanged; `allocationSize(a)` likewise fails; and every failing `free`
leaves the allocator state unchanged. -/
theorem claim_C5 (st : AllocState) (a : Allocation) (h : Reachable st)
    (hok : (free st a).1 = .ok ()) :
    free ((free st a).2) a = (.error .invalidHandle, (free st a).2) ∧
      allocationSize ((free st a).2) a = .error .invalidHandle ∧
      ∀ st' a' e, (free st' a').1 = .error e → (free st' a').2 = st' := by
  obtain ⟨h1, h2⟩ := free_free_invalidHandle (inv_of_reachable h) hok
  exact ⟨h1, h2, fun st' a' e he => free_error_state he⟩

theorem claim_C5_witness :
    free ((free (allocate (initState 1024 128) 100).2 ⟨0, 0⟩).2) ⟨0, 0⟩ =
      (.error .invalidHandle, (free (allocate (initState 1024 128) 100).2 ⟨0, 0⟩).2) :=
  (claim_C5 (allocate (initState 1024 128) 100).2 ⟨0, 0⟩
    (Reachable.stepAlloc 100 (Reachable.construct 1024 128 (by decide) (by decide)))
    (by rfl)).1

/-- Claim C6: the ceiling and floor size-class mappings are monotonic
non-decreasing, and the ceiling bin of a size is at least its floor bin. -/
theorem claim_C6 :
    (∀ s1 s2 b2, s1 < s2 → ceilBinOf s2 = some b2 →
      ∃ b1, ceilBinOf s1 = some b1 ∧ b1 ≤ b2) ∧
    (∀ s1 s2, s1 < s2 → floorBinOf s1 ≤ floorBinOf s2) ∧
    (∀ s b, ceilBinOf s = some b → floorBinOf s ≤ b) := by
  refine ⟨?_, ?_, ?_⟩
  · intro s1 s2 b2 h12 h2
    exact ceilBinOf_mono (Nat.le_of_lt h12) h2
  · intro s1 s2 h12
    exact floorBinOf_mono (Nat.le_of_lt h12)
  · intro s b hceil
    exact floorBinOf_le_ceil hceil

theorem claim_C6_witness :
    (∃ b1, ceilBinOf 100 = some b1 ∧ b1 ≤ 45) ∧
      floorBinOf 100 ≤ floorBinOf 200 ∧ floorBinOf 300 ≤ 50 :=
  ⟨claim_C6.1 100 200 45 (by decide) (by rfl),
    claim_C6.2.1 100 200 (by decide),
    claim_C6.2.2 300 50 (by rfl)⟩

/-- Claim C7 counterexample: the claim asserts that after `reset()` "an
allocation of the original size succeeds"; on `Allocator(100, 8)` (reset
immediately after construction, i.e. the empty operation sequence) the call
`allocate(100)` fails with `OutOfSpace`, because the request's ceiling bin
(minimum size 104) lies above the root node's floor bin (minimum size 96),
so the bin search misses the exactly-100-byte free region. -/
theorem claim_C7_counterexample :
    (allocate (resetA (initState 100 8)) 100).1 = .outOfSpace := by rfl

/-- Claim C7 (amended): after any sequence of operations, `reset()` yields
exactly the freshly constructed state for the same `(size, maxAllocations)`
parameters: the same `storageReport` (free-byte counter = size), a single
root free node spanning `[0, size)`, and every subsequent operation
(including an allocation of the original size) behaves exactly as on a fresh
allocator — but an allocation of the original size succeeds only when the
size is exactly a bin minimum (e.g. 1024), not in general. -/
theorem claim_C7_amended (st : AllocState) (_reach : Reachable st) :
    resetA st = initState st.totalSize st.maxAllocs ∧
      storageReport (resetA st) = storageReport (initState st.totalSize st.maxAllocs) ∧
      (storageReport (resetA st)).totalFreeSpace = st.totalSize ∧
      (resetA st).chain = [⟨0, 0, st.totalSize, false⟩] ∧
      (∀ s, allocate (resetA st) s = allocate (initState st.totalSize st.maxAllocs) s) ∧
      (∀ a, free (resetA st) a = free (initState st.totalSize st.maxAllocs) a) ∧
      (allocate (initState 1024 128) 1024).1 = .ok ⟨0, 0⟩ :=
  ⟨rfl, rfl, rfl, rfl, fun _ => rfl, fun _ => rfl, by rfl⟩

theorem claim_C7_witness :
    resetA (initState 100 8) =
      initState (initState 100 8).totalSize (initState 100 8).maxAllocs :=
  (claim_C7_amended (initState 100 8)
    (Reachable.construct 100 8 (by decide) (by decide))).1

/-- Claim C8: `IsPressed(k)` is edge-triggered: it returns true only on the
transition from not-held to held (never in two consecutive held frames), and
whenever the key is observed up or ImGui captures the keyboard it returns
false and forgets the key, so the next genuine press is reported again. -/
theorem claim_C8 (key : Nat) (down capture : Bool) (s : List Nat) :
    ((IsPressed key down capture s).1 = true →
      down = true ∧ capture = false ∧ key ∉ s) ∧
    (IsPressed key true false ((IsPressed key true false s).2)).1 = false ∧
    (¬(down = true ∧ capture = false) →
      (IsPressed key down capture s).1 = false ∧
      key ∉ (IsPressed key down capture s).2 ∧
      (IsPressed key true false ((IsPressed key down capture s).2)).1 = true) := by
  have hfilter : key ∉ s.filter (fun k => k != key) := by
    intro hc
    have := List.of_mem_filter hc
    simp at this
  have hcontains : ∀ t : List Nat, key ∈ t → t.contains key = true := by
    intro t ht
    exact List.elem_iff.mpr ht
  have hnotcontains : ∀ t : List Nat, key ∉ t → t.contains key = false := by
    intro t ht
    rw [← Bool.not_eq_true]
    intro hc
    exact ht (List.elem_iff.mp hc)
  refine ⟨?_, ?_, ?_⟩
  · intro htrue
    rw [IsPressed] at htrue
    by_cases hcond : down && !capture
    · rw [if_pos hcond] at htrue
      simp at htrue hcond
      exact ⟨hcond.1, hcond.2, htrue⟩
    · rw [if_neg hcond] at htrue
      exact Bool.noConfusion htrue
  · by_cases hmem : key ∈ s
    · have hc1 := hcontains s hmem
      simp [IsPressed, hc1, hmem]
    · have hc2 := hnotcontains s hmem
      simp [IsPressed, hc2, hmem]
  · intro hcond
    have hcondb : (down && !capture) = false := by
      cases down <;> cases capture <;> simp_all
    have hres : IsPressed key down capture s = (false, s.filter (fun k => k != key)) := by
      rw [IsPressed, hcondb]
      simp
    rw [hres]
    refine ⟨rfl, hfilter, ?_⟩
    have hc4 := hnotcontains _ hfilter
    simp [IsPressed, hc4, hfilter]

theorem claim_C8_witness :
    (IsPressed 65 true true [65]).1 = false ∧
      65 ∉ (IsPressed 65 true true [65]).2 ∧
      (IsPressed 65 true false ((IsPressed 65 true true [65]).2)).1 = true :=
  (claim_C8 65 true true [65]).2.2 (by simp)

/-- Claim C9: the harness never hands the allocator a handle it does not
track: every handle it frees comes from its `allocations` vector, is live
(was returned by a successful allocate and not yet freed), so the `free`
call always succeeds; the freed handle is removed from the vector in the
same step, and the vector is empty whenever the allocator has been destroyed
(and is cleared on reset/destroy) — hence the harness never issues a double
free or a free across a reset. -/
theorem claim_C9 (hs : HState) (h : HReach hs) :
    (∀ A, hs.alloc = some A → ∀ a ∈ hs.allocations,
      IsLive A a ∧ (free A a).1 = .ok ()) ∧
    (hs.alloc = none → hs.allocations = []) ∧
    (∀ o a, hs.allocations.find? (fun x => x.offset == o) = some a →
      a ∈ hs.allocations ∧ a ∉ hs.allocations.filter (fun x => x != a)) := by
  have hinv := hinv_of_hreach h
  refine ⟨fun A hA a ha => ⟨hinv.live A hA a ha,
    free_ok_of_live (inv_of_reachable (hinv.reach A hA)) (hinv.live A hA a ha)⟩,
    hinv.none_empty, fun o a hfind => ⟨List.mem_of_find?_eq_some hfind, ?_⟩⟩
  intro hc
  have := List.of_mem_filter hc
  simp at this

theorem claim_C9_witness :
    IsLive (allocate (initState 1024 128) 100).2 ⟨0, 0⟩ ∧
      (free (allocate (initState 1024 128) 100).2 ⟨0, 0⟩).1 = .ok () :=
  (claim_C9 ⟨some (allocate (initState 1024 128) 100).2,
      match (allocate (initState 1024 128) 100).1 with
      | .ok a => ([] : List Allocation) ++ [a]
      | _ => []⟩
    (HReach.step
      (HReach.step HReach.init
        (HStep.newAllocator 1024 128 [] (by decide) (by decide)))
      (HStep.allocClick 100 (initState 1024 128) []))).1
    (allocate (initState 1024 128) 100).2 rfl ⟨0, 0⟩ (by decide)

/-- Claim C10: with `windowWidth` a positive multiple of
`pixelsPerBlock = 16` and `pixelsPerByte = 16` (windowWidth = 16·W, W ≥ 1),
every iteration of the `drawAllocation` loop draws at least one byte, so
`bytes` strictly decreases and the loop terminates within `bytes`
iterations for every input `(offset, bytes)`. -/
theorem claim_C10 (W offset bytes : Nat) (hW : 1 ≤ W) :
    (1 ≤ bytes → 1 ≤ bytesToDrawStep W offset bytes) ∧
    (1 ≤ bytes → (drawStep W offset bytes).2 < bytes) ∧
    drawLoop W bytes offset bytes = 0 := by
  refine ⟨fun hb => bytesToDrawStep_pos hW hb, fun hb => ?_,
    drawLoop_zero hW bytes offset bytes (Nat.le_refl _)⟩
  have := @bytesToDrawStep_pos W offset bytes hW hb
  show bytes - bytesToDrawStep W offset bytes < bytes
  omega

theorem claim_C10_witness :
    (1 ≤ 7 → 1 ≤ bytesToDrawStep 3 5 7) ∧
      (1 ≤ 7 → (drawStep 3 5 7).2 < 7) ∧ drawLoop 3 7 5 7 = 0 :=
  claim_C10 3 5 7 (by decide)


end OA
